import Mathlib

/-!
Shallow embedding of `milktea-speaker-server`'s message codec
(`src/anybot/message.py`) and proofs about it.

Strings are modelled as `List Char` (`Str`).  Python's `str.replace` is
modelled by `replaceStr` (leftmost, non-overlapping, the replacement text is
not rescanned), implemented with a fuel argument so that the recursion is
structural and hence kernel-reducible; `replaceStr_cons` below recovers the
intended recurrence.  Exceptions (`ValueError` / `KeyError`) are modelled by
`Option`: `none` is a raised exception.
-/

namespace MT

abbrev Str := List Char

/-- Python `str.replace pat repl`, for a non-empty pattern `p0 :: ps`:
scan left to right; on a match emit `repl` and continue after the matched
span; otherwise emit one character and continue.  `fuel` bounds the number
of steps (any `fuel ≥ l.length` gives the same answer). -/
def replaceF (p0 : Char) (ps repl : Str) : Nat → Str → Str
  | _, [] => []
  | 0, l => l
  | fuel + 1, c :: rest =>
    if (p0 :: ps).isPrefixOf (c :: rest) then
      repl ++ replaceF p0 ps repl fuel (rest.drop ps.length)
    else
      c :: replaceF p0 ps repl fuel rest

def replaceStr (p0 : Char) (ps repl : Str) (l : Str) : Str :=
  replaceF p0 ps repl l.length l

/-- `escape` from `anybot/message.py`: `&`, `[`, `]` and (optionally) `,`
are replaced by their entities, ampersand first. -/
def escape (s : Str) (escape_comma : Bool) : Str :=
  let s1 := replaceStr '&' [] ("&amp;".data) s
  let s2 := replaceStr '[' [] ("&#91;".data) s1
  let s3 := replaceStr ']' [] ("&#93;".data) s2
  if escape_comma then replaceStr ',' [] ("&#44;".data) s3 else s3

/-- `unescape` from `anybot/message.py`: inverse substitutions, comma entity
first, ampersand entity last. -/
def unescape (s : Str) : Str :=
  let s1 := replaceStr '&' ("#44;".data) (",".data) s
  let s2 := replaceStr '&' ("#91;".data) ("[".data) s1
  let s3 := replaceStr '&' ("#93;".data) ("]".data) s2
  replaceStr '&' ("amp;".data) ("&".data) s3

/-! The escaper as a character-block homomorphism. -/

def concatMap (f : Char → Str) : Str → Str
  | [] => []
  | c :: rest => f c ++ concatMap f rest

/-- The block each character becomes under `escape · true`. -/
def escChar (c : Char) : Str :=
  if c = '&' then "&amp;".data
  else if c = '[' then "&#91;".data
  else if c = ']' then "&#93;".data
  else if c = ',' then "&#44;".data
  else [c]

/-- Block map after decoding the comma entity. -/
def esc1 (c : Char) : Str :=
  if c = '&' then "&amp;".data
  else if c = '[' then "&#91;".data
  else if c = ']' then "&#93;".data
  else [c]

/-- Block map after also decoding the left-bracket entity. -/
def esc2 (c : Char) : Str :=
  if c = '&' then "&amp;".data
  else if c = ']' then "&#93;".data
  else [c]

/-- Block map after also decoding the right-bracket entity. -/
def esc3 (c : Char) : Str :=
  if c = '&' then "&amp;".data
  else [c]

/-! The data model.  A `MessageSegment` is a restricted dict holding the keys
`type` and `data`; we embed it as a two-field structure (the faithful
raw-dict constructor `msInit`, used to analyse `MessageSegment.__init__`'s
mapping path, is further below).  Python dicts are association lists with
unique keys, insertion-ordered; `dictInsert` models `d[k] = v` (update in
place, else append) and `dictGet` models `d[k]` / `d.get(k)`. -/

def tTEXT : Str := "text".data

def dictGet (d : List (Str × Str)) (k : Str) : Option Str :=
  match d with
  | [] => none
  | (k2, v) :: rest => if k2 = k then some v else dictGet rest k

def dictGetD (d : List (Str × Str)) (k : Str) (dflt : Str) : Str :=
  (dictGet d k).getD dflt

def dictInsert (d : List (Str × Str)) (k v : Str) : List (Str × Str) :=
  match d with
  | [] => [(k, v)]
  | (k2, v2) :: rest => if k2 = k then (k2, v) :: rest else (k2, v2) :: dictInsert rest k v

structure MessageSegment where
  type : Str
  data : List (Str × Str)
deriving DecidableEq

/-- The character class `[a-zA-Z0-9-_.]` of the token regex (both the
`type` part and the key part use the same class). -/
def isTypeChar (c : Char) : Bool :=
  (decide ('a' ≤ c) && decide (c ≤ 'z')) || (decide ('A' ≤ c) && decide (c ≤ 'Z')) ||
    (decide ('0' ≤ c) && decide (c ≤ '9')) || c == '-' || c == '_' || c == '.'

/-- Python `str.lstrip()` whitespace (the ASCII part). -/
def pySpace (c : Char) : Bool :=
  c == ' ' || c == '\t' || c == '\n' || c == '\r' || c == '\x0b' || c == '\x0c'

/-- `','.join`· -/
def joinComma : List Str → Str
  | [] => []
  | [x] => x
  | x :: rest => x ++ ',' :: joinComma rest

/-- The `k=v` wire form of one param, with the value escaped. -/
def fmtKV (kv : Str × Str) : Str := kv.1 ++ '=' :: escape kv.2 true

/-- `MessageSegment.__str__`: a `text` segment renders as its (comma-sparing)
escaped content; any other segment renders as `[MT:type,k=v,...]` with each
value fully escaped. -/
def segStr (seg : MessageSegment) : Str :=
  if seg.type = tTEXT then
    escape (dictGetD seg.data tTEXT []) false
  else
    let params := joinComma (seg.data.map fmtKV)
    let params2 := if params.isEmpty then params else ',' :: params
    ("[MT:".data) ++ seg.type ++ params2 ++ ("]".data)

/-- `Message.__str__`. -/
def msgStr (m : List MessageSegment) : Str := (m.map segStr).flatten

/-! The parser (`Message._split_iter`).  The regex
`\[MT:(?P<type>[a-zA-Z0-9-_.]+)(?P<params>(?:,[a-zA-Z0-9-_.]+=?[^,\]]*)*),?\]`
is modelled by the deterministic matcher below: after `[MT:` comes a
maximal non-empty run of type characters, then a sequence of groups
`,<chunk>` where a chunk is a maximal run without `,`/`]` that is non-empty
and starts with a key character, then an optional `,`, then `]`.
Backtracking cannot produce any other match: chunks cannot contain commas,
values admit every character a shorter key would free up, and a shortened
type run would leave a type character where a `,` or `]` is required. -/

def notCB (c : Char) : Bool := !(c == ',' || c == ']')

def keyStart : Str → Bool
  | [] => false
  | c :: _ => isTypeChar c

def matchParamsF : Nat → Str → Option (Str × Str)
  | _, [] => none
  | 0, _ :: _ => none
  | fuel + 1, c :: rest =>
    if c = ']' then some ([], rest)
    else if c = ',' then
      let chunk := rest.takeWhile notCB
      let rest2 := rest.dropWhile notCB
      if keyStart chunk then
        (matchParamsF fuel rest2).map (fun pr => (',' :: (chunk ++ pr.1), pr.2))
      else
        match rest with
        | x :: rest3 => if x = ']' then some ([], rest3) else none
        | [] => none
    else none

def matchParams (l : Str) : Option (Str × Str) := matchParamsF l.length l

/-- Try to match one token at the head of `l`; on success return the
captured type, the captured params group, and the remainder after `]`. -/
def matchToken (l : Str) : Option (Str × Str × Str) :=
  if l.take 4 = "[MT:".data then
    let rest := l.drop 4
    let ty := rest.takeWhile isTypeChar
    let rest2 := rest.dropWhile isTypeChar
    if ty.isEmpty then none
    else (matchParams rest2).map (fun pr => (ty, pr.1, pr.2))
  else none

structure TokenHit where
  pre : Str
  ty : Str
  ps : Str
  rest : Str
deriving DecidableEq

/-- `re.finditer`'s next match: scan left to right for the first position
where the token pattern matches. -/
def findToken : Str → Option TokenHit
  | [] => none
  | c :: rest =>
    match matchToken (c :: rest) with
    | some (ty, ps, r2) => some ⟨[], ty, ps, r2⟩
    | none => (findToken rest).map (fun h => ⟨c :: h.pre, h.ty, h.ps, h.rest⟩)

/-- `params.lstrip(',')`. -/
def lstripComma (l : Str) : Str := l.dropWhile (fun c => c == ',')

/-- `iter_function_name_and_extra` inside `Message._split_iter`: emit the
(unescaped) text span before each token, the token itself, and the final
(unescaped) trailing span.  Structural in a fuel that bounds the number of
tokens; `iterFne_eq` below recovers the intended recurrence. -/
def iterF : Nat → Str → List (Str × Str)
  | 0, l => [(tTEXT, unescape l)]
  | fuel + 1, l =>
    match findToken l with
    | some h => (tTEXT, unescape h.pre) :: (h.ty, lstripComma h.ps) :: iterF fuel h.rest
    | none => [(tTEXT, unescape l)]

def iterFne (l : Str) : List (Str × Str) := iterF (l.length + 1) l

/-- Python `str.split(',')` (no maxsplit): always non-empty, keeps empty
pieces. -/
def splitComma : Str → List Str
  | [] => [[]]
  | c :: rest =>
    if c = ',' then [] :: splitComma rest
    else
      match splitComma rest with
      | h :: t => (c :: h) :: t
      | [] => [[c]]

/-- Python `str.split('=', maxsplit=1)`: the part before the first `=` and,
if one exists, the part after it. -/
def splitEq1 : Str → Str × Option Str
  | [] => ([], none)
  | c :: rest =>
    if c = '=' then ([], some rest)
    else
      let pr := splitEq1 rest
      (c :: pr.1, pr.2)

/-- The dict comprehension over `k=v` pieces; a piece without `=` raises
`ValueError` (unpacking a 1-element list). -/
def buildParams : List Str → List (Str × Str) → Option (List (Str × Str))
  | [], d => some d
  | p :: rest, d =>
    match splitEq1 p with
    | (_, none) => none
    | (k, some v) => buildParams rest (dictInsert d k v)

/-- The params processing of the non-text branch of `_split_iter`: split the
captured group on commas, `lstrip()` each piece, drop empty pieces, split
each on the first `=` and build the dict. -/
def parseParams (extra : Str) : Option (List (Str × Str)) :=
  buildParams
    (((splitComma extra).map (fun x => x.dropWhile pySpace)).filter (fun x => !x.isEmpty)) []

/-- The consumer loop of `_split_iter`: empty text spans are suppressed,
non-empty ones become `text` segments, tokens become segments with their
parsed params. -/
def splitIterGo : List (Str × Str) → Option (List MessageSegment)
  | [] => some []
  | (name, extra) :: rest =>
    if name = tTEXT then
      if extra.isEmpty then splitIterGo rest
      else (splitIterGo rest).map (fun segs => ⟨tTEXT, [(tTEXT, extra)]⟩ :: segs)
    else
      match parseParams extra with
      | some d => (splitIterGo rest).map (fun segs => ⟨name, d⟩ :: segs)
      | none => none

/-- `Message._split_iter` as a whole: the list of segments it yields, or
`none` if iterating it raises. -/
def splitIter (msg_str : Str) : Option (List MessageSegment) :=
  splitIterGo (iterFne msg_str)

/-! `Message.append` and friends.  `append` merges an incoming `text`
segment into a `text` tail, suppresses empty `text` segments on a non-empty
message, and otherwise appends.  The two accesses `self[-1].data['text']`
and `obj.data['text']` are plain dict subscripts and raise `KeyError`
(modelled as `none`) when the key is missing. -/

def msgAppendPlain (self : List MessageSegment) (obj : MessageSegment) :
    Option (List MessageSegment) :=
  if obj.type ≠ tTEXT then some (self ++ [obj])
  else
    match dictGet obj.data tTEXT with
    | none => none
    | some t =>
      if ¬ t.isEmpty then some (self ++ [obj])
      else if self.isEmpty then some (self ++ [obj])
      else some self

def msgAppendSeg (self : List MessageSegment) (obj : MessageSegment) :
    Option (List MessageSegment) :=
  match self.getLast? with
  | some last =>
    if last.type = tTEXT ∧ obj.type = tTEXT then
      match dictGet last.data tTEXT, dictGet obj.data tTEXT with
      | some t1, some t2 =>
        some (self.dropLast ++ [⟨last.type, dictInsert last.data tTEXT (t1 ++ t2)⟩])
      | _, _ => none
    else msgAppendPlain self obj
  | none => msgAppendPlain self obj

/-- `Message.extend` over an already-parsed sequence of segments: append
each in order (on an exception the Python list keeps the part already
appended; only the raised/not-raised outcome and the success value are
modelled). -/
def msgExtendSegs : List MessageSegment → List MessageSegment → Option (List MessageSegment)
  | self, [] => some self
  | self, s :: rest => (msgAppendSeg self s).bind (fun m2 => msgExtendSegs m2 rest)

/-- `Message.extend` with a string argument: parse it, then append each
resulting segment. -/
def msgExtendStr (self : List MessageSegment) (s : Str) : Option (List MessageSegment) :=
  (splitIter s).bind (msgExtendSegs self)

/-- `Message.reduce`: one left-to-right pass; a pair of adjacent `text`
segments is merged into the left one (which keeps its position and type) and
the right one is deleted; the scan then continues at the same index.
Structural in a fuel; `reduceM_cons₂` below recovers the recurrence. -/
def reduceF : Nat → List MessageSegment → Option (List MessageSegment)
  | _, [] => some []
  | _, [s] => some [s]
  | 0, l => some l
  | fuel + 1, s1 :: s2 :: rest =>
    if s1.type = tTEXT ∧ s2.type = tTEXT then
      match dictGet s1.data tTEXT, dictGet s2.data tTEXT with
      | some t1, some t2 =>
        reduceF fuel (⟨s1.type, dictInsert s1.data tTEXT (t1 ++ t2)⟩ :: rest)
      | _, _ => none
    else (reduceF fuel (s2 :: rest)).map (fun r => s1 :: r)

def reduceM (m : List MessageSegment) : Option (List MessageSegment) :=
  reduceF m.length m

/-- The accumulation loop of `extract_plain_text`: for every `text` segment
append a space and its (`KeyError`-prone) `data['text']`. -/
def eptLoop : List MessageSegment → Str → Option Str
  | [], result => some result
  | s :: rest, result =>
    if s.type = tTEXT then
      match dictGet s.data tTEXT with
      | some t => eptLoop rest (result ++ ' ' :: t)
      | none => none
    else eptLoop rest result

/-- `Message.extract_plain_text`: optionally reduce first, then accumulate,
then strip the leading separator if the result is non-empty. -/
def extractPlainText (self : List MessageSegment) (red : Bool) : Option Str :=
  (if red then reduceM self else some self).bind (fun l =>
    (eptLoop l []).map (fun r => if r.isEmpty then r else r.drop 1))

/-! The raw-dict model of `MessageSegment.__init__`.  A `MessageSegment` is
a `dict` subclass; `__init__(d)` runs `self.update(d)` whenever
`isinstance(d, dict) and d.get('type')` holds.  `dict.update` is the C
implementation and does not go through the overridden `__setitem__`, so it
copies every key of `d` verbatim.  `PyV` is the universe of dict values
needed here (strings, string dicts, `None`). -/

def tTYPE : Str := "type".data

def tDATA : Str := "data".data

inductive PyV where
  | vstr (s : Str)
  | vdict (d : List (Str × Str))
  | vnone
deriving DecidableEq

/-- Python truthiness of an optional `PyV` (as in `d.get('type')`). -/
def truthyV : Option PyV → Bool
  | none => false
  | some (PyV.vstr s) => !s.isEmpty
  | some (PyV.vdict d) => !d.isEmpty
  | some PyV.vnone => false

def dictGetV (d : List (Str × PyV)) (k : Str) : Option PyV :=
  match d with
  | [] => none
  | (k2, v) :: rest => if k2 = k then some v else dictGetV rest k

def dictInsertV (d : List (Str × PyV)) (k : Str) (v : PyV) : List (Str × PyV) :=
  match d with
  | [] => [(k, v)]
  | (k2, v2) :: rest => if k2 = k then (k2, v) :: rest else (k2, v2) :: dictInsertV rest k v

/-- `dict.update` of `upd` into `d` (C-level: bypasses `__setitem__`). -/
def dictUpdateV (d : List (Str × PyV)) (upd : List (Str × PyV)) : List (Str × PyV) :=
  upd.foldl (fun acc kv => dictInsertV acc kv.1 kv.2) d

/-- `MessageSegment.__init__(d, type_=ty, data=data)`, returning the
underlying dict of the constructed segment, or `none` for the `ValueError`
path. -/
def msInit (d : Option (List (Str × PyV))) (ty : Option Str)
    (data : Option (List (Str × Str))) : Option (List (Str × PyV)) :=
  match d with
  | some dd =>
    if truthyV (dictGetV dd tTYPE) then some (dictUpdateV [] dd)
    else msInitKw ty data
  | none => msInitKw ty data
where
  msInitKw : Option Str → Option (List (Str × Str)) → Option (List (Str × PyV))
    | some t, data =>
      if !t.isEmpty then some [(tTYPE, PyV.vstr t), (tDATA, PyV.vdict (data.getD []))]
      else none
    | none, _ => none

/-! The shapes `Message.__init__` / `Message.__add__` / `Message.append`
dispatch on.  `pdict` carries a canonical segment dict (`type` plus an
optional `data` sub-dict); the faithful arbitrary-key constructor is
`msInit` above — the shape dispatch proved about `msgInit` / `msgAdd` never
depends on the fields of a coerced dict. -/

inductive PyVal where
  | pmsg (l : List MessageSegment)
  | pseg (s : MessageSegment)
  | plist (l : List PyVal)
  | pdict (d : List (Str × PyV))
  | pstr (s : Str)
  | pint (n : Int)
  | pnone

/-- `MessageSegment(x)` for a non-`MessageSegment` value `x`: succeeds only
on a dict with a truthy `type` (a `MessageSegment` argument, being a dict
with a truthy `type`, is copied).  For a canonical dict the result is the
segment with that `type` and `data`. -/
def coerceSeg : PyVal → Option MessageSegment
  | PyVal.pseg s => if !s.type.isEmpty then some s else none
  | PyVal.pdict d =>
    match dictGetV d tTYPE with
    | some (PyV.vstr t) =>
      if !t.isEmpty then
        some ⟨t, match dictGetV d tDATA with
          | some (PyV.vdict dd) => dd
          | _ => []⟩
      else none
    | _ => none
  | _ => none

/-- `Message.append(obj)`: a `MessageSegment` is appended directly, any
other value is first coerced through `MessageSegment(obj)`. -/
def msgAppendVal (self : List MessageSegment) : PyVal → Option (List MessageSegment)
  | PyVal.pseg s => msgAppendSeg self s
  | v => (coerceSeg v).bind (msgAppendSeg self)

def msgExtendVals : List MessageSegment → List PyVal → Option (List MessageSegment)
  | self, [] => some self
  | self, v :: rest => (msgAppendVal self v).bind (fun m2 => msgExtendVals m2 rest)

/-- `Message.__init__(msg)`: strings and lists are `extend`ed, dicts are
`append`ed, anything else (including `None`) is silently ignored. -/
def msgInit : PyVal → Option (List MessageSegment)
  | PyVal.pstr s => msgExtendStr [] s
  | PyVal.pmsg l => msgExtendSegs [] l
  | PyVal.plist l => msgExtendVals [] l
  | PyVal.pseg s => msgAppendVal [] (PyVal.pseg s)
  | PyVal.pdict d => msgAppendVal [] (PyVal.pdict d)
  | PyVal.pint _ => some []
  | PyVal.pnone => some []

/-- `Message.__add__(other)`: build `result = Message(self)`, then dispatch
on the shape of `other`; a shape that matches no branch falls through and
`result` is returned unchanged. -/
def msgAdd (self : List MessageSegment) (other : PyVal) : Option (List MessageSegment) :=
  (msgExtendSegs [] self).bind (fun result =>
    match other with
    | PyVal.pmsg l => msgExtendSegs result l
    | PyVal.pseg s => msgAppendSeg result s
    | PyVal.plist l => msgExtendVals result l
    | PyVal.pdict d => (coerceSeg (PyVal.pdict d)).bind (msgAppendSeg result)
    | PyVal.pstr s => msgExtendStr result s
    | _ => some result)

/-- Shapes `Message.__init__` / `Message.__add__` do not recognise: neither
string, nor list/Message, nor dict/segment. -/
def unrecognizedShape : PyVal → Bool
  | PyVal.pint _ => true
  | PyVal.pnone => true
  | _ => false

/-- No empty-`text` placeholder and no two adjacent `text` segments. -/
def isReducedB : List MessageSegment → Bool
  | s1 :: s2 :: rest => (!(s1.type == tTEXT && s2.type == tTEXT)) && isReducedB (s2 :: rest)
  | _ => true

/-- Every `text` segment carries the `text` key (so the `KeyError`-prone
consumers cannot raise on it). -/
def textKeyed (m : List MessageSegment) : Bool :=
  m.all (fun s => (s.type != tTEXT) || (dictGet s.data tTEXT).isSome)

/-- The last segment, if any and of type `text`, carries the `text` key. -/
def lastTextKeyed (self : List MessageSegment) : Bool :=
  match self.getLast? with
  | none => true
  | some s => (s.type != tTEXT) || (dictGet s.data tTEXT).isSome

/-- Spec-side join: pieces separated by one space, no leading/trailing. -/
def specJoinSpace : List Str → Str
  | [] => []
  | [x] => x
  | x :: rest => x ++ ' ' :: specJoinSpace rest

/-- Spec-side (`extract_plain_text`'s documented output, built from the
spec's words, for comparison with the code): the text contents of the
`text` segments, joined by single spaces. -/
def plainTextOfSpec (m : List MessageSegment) : Str :=
  specJoinSpace ((m.filter (fun s => s.type == tTEXT)).map
    (fun s => dictGetD s.data tTEXT []))

/-- The text contents `extract_plain_text` walks over. -/
def textsOf (m : List MessageSegment) : List Str :=
  (m.filter (fun s => s.type == tTEXT)).map (fun s => dictGetD s.data tTEXT [])

/-- The raw accumulator shape of `extract_plain_text` before the leading
separator is stripped. -/
def prefixSpaces : List Str → Str
  | [] => []
  | t :: rest => (' ' :: t) ++ prefixSpaces rest

/-- Every lstripped non-empty comma piece of a captured params group
contains an `=` (so the dict build cannot raise). -/
def goodExtra (extra : Str) : Bool :=
  (((splitComma extra).map (fun x => x.dropWhile pySpace)).filter
    (fun x => !x.isEmpty)).all (fun p => (splitEq1 p).2.isSome)

/-! Infrastructure for the render/parse round trip (claim C1). -/

/-- None of the four reserved characters occurs, i.e. the string is its own
escaped form. -/
def reservedFree (t : Str) : Bool :=
  t.all (fun c => !(c == '&' || c == '[' || c == ']' || c == ','))

def keysNodupB : List (Str × Str) → Bool
  | [] => true
  | (k, _) :: rest => (!(rest.any (fun kv => kv.1 == k))) && keysNodupB rest

/-- Non-text params whose wire form survives the parser's raw (non-unescaping)
value extraction: identifier keys, reserved-free values. -/
def dataOKB (d : List (Str × Str)) : Bool :=
  d.all (fun kv => !kv.1.isEmpty && kv.1.all isTypeChar && reservedFree kv.2)

/-- Well-formed segment for the round trip: a `text` segment carries exactly
the single non-empty reserved-free `text` param; any other segment has a
non-empty identifier type, identifier keys, reserved-free values and
distinct keys. -/
def wfSegB (s : MessageSegment) : Bool :=
  if s.type == tTEXT then
    match s.data with
    | [(k, t)] => k == tTEXT && !t.isEmpty && reservedFree t
    | _ => false
  else
    !s.type.isEmpty && s.type.all isTypeChar && dataOKB s.data && keysNodupB s.data

def wfMsgB (m : List MessageSegment) : Bool := m.all wfSegB

/-- The string captured as the `params` group when a non-text segment with
params `d` is rendered (each group contributes its leading comma). -/
def tokParamsD (d : List (Str × Str)) : Str :=
  if (joinComma (d.map fmtKV)).isEmpty then joinComma (d.map fmtKV)
  else ',' :: joinComma (d.map fmtKV)

/-! ## Theorems -/

theorem replaceF_congr (p0 : Char) (ps repl : Str) :
    ∀ f1 f2 l, l.length ≤ f1 → l.length ≤ f2 →
      replaceF p0 ps repl f1 l = replaceF p0 ps repl f2 l := by
  intro f1
  induction f1 with
  | zero =>
    intro f2 l h1 h2
    cases l with
    | nil => cases f2 <;> rfl
    | cons c rest => simp at h1
  | succ f ih =>
    intro f2 l h1 h2
    cases l with
    | nil => cases f2 <;> rfl
    | cons c rest =>
      cases f2 with
      | zero => simp at h2
      | succ g =>
        simp only [List.length_cons, Nat.succ_le_succ_iff] at h1 h2
        have hd : (rest.drop ps.length).length ≤ rest.length := by
          simp [List.length_drop]
        simp only [replaceF]
        by_cases h : (p0 :: ps).isPrefixOf (c :: rest)
        · simp only [if_pos h]
          congr 1
          exact ih g _ (Nat.le_trans hd h1) (Nat.le_trans hd h2)
        · simp only [if_neg h]
          congr 1
          exact ih g rest h1 h2

/-- The intended recurrence for `replaceStr`. -/
theorem replaceStr_cons (p0 : Char) (ps repl : Str) (c : Char) (rest : Str) :
    replaceStr p0 ps repl (c :: rest) =
      if (p0 :: ps).isPrefixOf (c :: rest) then
        repl ++ replaceStr p0 ps repl (rest.drop ps.length)
      else
        c :: replaceStr p0 ps repl rest := by
  show replaceF p0 ps repl (rest.length + 1) (c :: rest) = _
  simp only [replaceF]
  by_cases h : (p0 :: ps).isPrefixOf (c :: rest)
  · simp only [if_pos h]
    congr 1
    exact replaceF_congr p0 ps repl _ _ _ (by simp [List.length_drop]) (Nat.le_refl _)
  · simp only [if_neg h]
    rfl

theorem replaceStr_nil (p0 : Char) (ps repl : Str) : replaceStr p0 ps repl [] = [] := rfl

/-! Generic lemmas about `replaceStr`. -/

theorem isPrefixOf_cons (a b : Char) (as bs : Str) :
    (a :: as).isPrefixOf (b :: bs) = (a == b && as.isPrefixOf bs) := rfl

theorem isPrefixOf_self (l : Str) : l.isPrefixOf l = true := by
  induction l with
  | nil => rfl
  | cons c rest ih => simp [isPrefixOf_cons, ih]

theorem isPrefixOf_append_of_length_le (pat : Str) :
    ∀ l1 l2 : Str, pat.length ≤ l1.length →
      pat.isPrefixOf (l1 ++ l2) = pat.isPrefixOf l1 := by
  induction pat with
  | nil => intro l1 l2 h; simp
  | cons a as ih =>
    intro l1 l2 h
    cases l1 with
    | nil => simp at h
    | cons b bs =>
      simp only [List.cons_append, isPrefixOf_cons]
      rw [ih bs l2 (by simpa using h)]

/-- A span containing no character equal to the pattern head is copied
verbatim by `replaceStr`. -/
theorem replaceStr_skip_all (p0 : Char) (ps repl : Str) :
    ∀ l t : Str, (∀ c ∈ l, c ≠ p0) →
      replaceStr p0 ps repl (l ++ t) = l ++ replaceStr p0 ps repl t := by
  intro l
  induction l with
  | nil => intro t h; rfl
  | cons c rest ih =>
    intro t h
    rw [List.cons_append, replaceStr_cons, isPrefixOf_cons]
    have hc : (p0 == c) = false := by
      have hne : c ≠ p0 := h c (by simp)
      simp [Ne.symm hne]
    rw [hc]
    simp only [Bool.false_and]
    rw [if_neg (by decide)]
    rw [ih t (fun c2 hc2 => h c2 (by simp [hc2]))]
    rfl

/-- A literal occurrence of the pattern at the head of the input is replaced. -/
theorem replaceStr_head_match (p0 : Char) (ps repl t : Str) :
    replaceStr p0 ps repl ((p0 :: ps) ++ t) = repl ++ replaceStr p0 ps repl t := by
  rw [List.cons_append, replaceStr_cons]
  have hpre : (p0 :: ps).isPrefixOf (p0 :: (ps ++ t)) = true := by
    rw [show p0 :: (ps ++ t) = (p0 :: ps) ++ t by rfl,
      isPrefixOf_append_of_length_le _ _ _ (Nat.le_refl _), isPrefixOf_self]
  rw [if_pos hpre, List.drop_left]

/-- A block that starts like the input, is at least as long as the pattern,
disagrees with the pattern, and whose tail avoids the pattern head, is copied
verbatim by `replaceStr`. -/
theorem replaceStr_entity_skip (p0 : Char) (ps repl : Str) (b0 : Char) (bs t : Str)
    (hlen : (p0 :: ps).length ≤ (b0 :: bs).length)
    (hpre : (p0 :: ps).isPrefixOf (b0 :: bs) = false)
    (hbs : ∀ c ∈ bs, c ≠ p0) :
    replaceStr p0 ps repl ((b0 :: bs) ++ t) = (b0 :: bs) ++ replaceStr p0 ps repl t := by
  rw [List.cons_append, replaceStr_cons,
    show b0 :: (bs ++ t) = (b0 :: bs) ++ t by rfl,
    isPrefixOf_append_of_length_le _ _ _ hlen, hpre]
  rw [if_neg (by decide)]
  rw [replaceStr_skip_all p0 ps repl bs t hbs]
  rfl

theorem concatMap_append (f : Char → Str) (l1 l2 : Str) :
    concatMap f (l1 ++ l2) = concatMap f l1 ++ concatMap f l2 := by
  induction l1 with
  | nil => rfl
  | cons c rest ih => simp [concatMap, ih]

theorem replaceStr_single_concatMap (a : Char) (repl : Str) :
    ∀ l : Str, replaceStr a [] repl l = concatMap (fun c => if c = a then repl else [c]) l := by
  intro l
  induction l with
  | nil => rfl
  | cons c rest ih =>
    rw [replaceStr_cons, isPrefixOf_cons]
    by_cases hc : c = a
    · subst hc
      simp only [beq_self_eq_true, Bool.true_and, List.isPrefixOf_nil_left, if_true]
      simp only [List.length_nil, List.drop_zero]
      simp [concatMap, ih]
    · have hb : (a == c) = false := by simp [Ne.symm hc]
      rw [hb]
      simp only [Bool.false_and]
      rw [if_neg (by decide)]
      simp [concatMap, hc, ih]

theorem replaceStr_single_ne (a : Char) (repl : Str) (c : Char) (hc : c ≠ a) :
    replaceStr a [] repl [c] = [c] := by
  rw [replaceStr_single_concatMap]
  simp [concatMap, hc]

theorem escape_eq_concatMap (s : Str) : escape s true = concatMap escChar s := by
  induction s with
  | nil => rfl
  | cons c rest ih =>
    show escape (([c] : Str) ++ rest) true = _
    have hom : ∀ (a : Char) (repl l1 l2 : Str),
        replaceStr a [] repl (l1 ++ l2) = replaceStr a [] repl l1 ++ replaceStr a [] repl l2 := by
      intro a repl l1 l2
      rw [replaceStr_single_concatMap, replaceStr_single_concatMap, replaceStr_single_concatMap,
        concatMap_append]
    show replaceStr ',' [] _ (replaceStr ']' [] _ (replaceStr '[' [] _
      (replaceStr '&' [] _ (([c] : Str) ++ rest)))) = _
    rw [hom, hom, hom, hom]
    have hsingle : replaceStr ',' [] ("&#44;".data) (replaceStr ']' [] ("&#93;".data)
        (replaceStr '[' [] ("&#91;".data) (replaceStr '&' [] ("&amp;".data) [c]))) = escChar c := by
      by_cases h1 : c = '&'
      · subst h1; decide
      · by_cases h2 : c = '['
        · subst h2; decide
        · by_cases h3 : c = ']'
          · subst h3; decide
          · by_cases h4 : c = ','
            · subst h4; decide
            · rw [replaceStr_single_ne '&' _ c h1, replaceStr_single_ne '[' _ c h2,
                replaceStr_single_ne ']' _ c h3, replaceStr_single_ne ',' _ c h4]
              simp [escChar, h1, h2, h3, h4]
    rw [hsingle]
    show _ ++ escape rest true = _
    rw [ih]
    rfl

theorem concatMap_singleton (s : Str) : concatMap (fun c => [c]) s = s := by
  induction s with
  | nil => rfl
  | cons c rest ih => simp [concatMap, ih]

theorem replaceStr_concatMap (p0 : Char) (ps repl : Str) (f g : Char → Str)
    (hblock : ∀ c t, replaceStr p0 ps repl (f c ++ t) = g c ++ replaceStr p0 ps repl t) :
    ∀ s, replaceStr p0 ps repl (concatMap f s) = concatMap g s := by
  intro s
  induction s with
  | nil => rfl
  | cons c rest ih =>
    show replaceStr p0 ps repl (f c ++ concatMap f rest) = g c ++ concatMap g rest
    rw [hblock c (concatMap f rest), ih]

theorem hblock44 (c : Char) (t : Str) :
    replaceStr '&' ("#44;".data) (",".data) (escChar c ++ t) =
      esc1 c ++ replaceStr '&' ("#44;".data) (",".data) t := by
  by_cases h1 : c = '&'
  · subst h1
    rw [show escChar '&' = '&' :: ("amp;".data) from by decide,
      replaceStr_entity_skip _ _ _ _ _ t (by decide) (by decide) (by decide)]
    rfl
  · by_cases h2 : c = '['
    · subst h2
      rw [show escChar '[' = '&' :: ("#91;".data) from by decide,
        replaceStr_entity_skip _ _ _ _ _ t (by decide) (by decide) (by decide)]
      rfl
    · by_cases h3 : c = ']'
      · subst h3
        rw [show escChar ']' = '&' :: ("#93;".data) from by decide,
          replaceStr_entity_skip _ _ _ _ _ t (by decide) (by decide) (by decide)]
        rfl
      · by_cases h4 : c = ','
        · subst h4
          rw [show escChar ',' = '&' :: ("#44;".data) from by decide,
            replaceStr_head_match]
          rfl
        · rw [show escChar c = [c] from by simp [escChar, h1, h2, h3, h4],
            replaceStr_skip_all _ _ _ [c] t (by simpa using h1)]
          simp [esc1, h1, h2, h3, h4]

theorem hblock91 (c : Char) (t : Str) :
    replaceStr '&' ("#91;".data) ("[".data) (esc1 c ++ t) =
      esc2 c ++ replaceStr '&' ("#91;".data) ("[".data) t := by
  by_cases h1 : c = '&'
  · subst h1
    rw [show esc1 '&' = '&' :: ("amp;".data) from by decide,
      replaceStr_entity_skip _ _ _ _ _ t (by decide) (by decide) (by decide)]
    rfl
  · by_cases h2 : c = '['
    · subst h2
      rw [show esc1 '[' = '&' :: ("#91;".data) from by decide, replaceStr_head_match]
      rfl
    · by_cases h3 : c = ']'
      · subst h3
        rw [show esc1 ']' = '&' :: ("#93;".data) from by decide,
          replaceStr_entity_skip _ _ _ _ _ t (by decide) (by decide) (by decide)]
        rfl
      · rw [show esc1 c = [c] from by simp [esc1, h1, h2, h3],
          replaceStr_skip_all _ _ _ [c] t (by simpa using h1)]
        simp [esc2, h1, h2, h3]

theorem hblock93 (c : Char) (t : Str) :
    replaceStr '&' ("#93;".data) ("]".data) (esc2 c ++ t) =
      esc3 c ++ replaceStr '&' ("#93;".data) ("]".data) t := by
  by_cases h1 : c = '&'
  · subst h1
    rw [show esc2 '&' = '&' :: ("amp;".data) from by decide,
      replaceStr_entity_skip _ _ _ _ _ t (by decide) (by decide) (by decide)]
    rfl
  · by_cases h3 : c = ']'
    · subst h3
      rw [show esc2 ']' = '&' :: ("#93;".data) from by decide, replaceStr_head_match]
      rfl
    · rw [show esc2 c = [c] from by simp [esc2, h1, h3],
        replaceStr_skip_all _ _ _ [c] t (by simpa using h1)]
      simp [esc3, h1, h3]

theorem hblockAmp (c : Char) (t : Str) :
    replaceStr '&' ("amp;".data) ("&".data) (esc3 c ++ t) =
      [c] ++ replaceStr '&' ("amp;".data) ("&".data) t := by
  by_cases h1 : c = '&'
  · subst h1
    rw [show esc3 '&' = '&' :: ("amp;".data) from by decide, replaceStr_head_match]
  · rw [show esc3 c = [c] from by simp [esc3, h1],
      replaceStr_skip_all _ _ _ [c] t (by simpa using h1)]

theorem unescape_escape (s : Str) : unescape (escape s true) = s := by
  rw [escape_eq_concatMap]
  show replaceStr '&' ("amp;".data) ("&".data)
    (replaceStr '&' ("#93;".data) ("]".data)
      (replaceStr '&' ("#91;".data) ("[".data)
        (replaceStr '&' ("#44;".data) (",".data) (concatMap escChar s)))) = s
  rw [replaceStr_concatMap _ _ _ escChar esc1 hblock44 s,
    replaceStr_concatMap _ _ _ esc1 esc2 hblock91 s,
    replaceStr_concatMap _ _ _ esc2 esc3 hblock93 s,
    replaceStr_concatMap _ _ _ esc3 (fun c => [c]) hblockAmp s,
    concatMap_singleton]

theorem length_dropWhile_le (p : Char → Bool) (l : Str) :
    (l.dropWhile p).length ≤ l.length := by
  induction l with
  | nil => simp
  | cons c rest ih =>
    rw [List.dropWhile_cons]
    by_cases h : p c
    · simp only [if_pos h]
      exact Nat.le_trans ih (Nat.le_succ _)
    · simp [if_neg h]

theorem matchParamsF_lt :
    ∀ fuel l ps r, matchParamsF fuel l = some (ps, r) → r.length < l.length := by
  intro fuel
  induction fuel with
  | zero =>
    intro l ps r h
    cases l with
    | nil => simp [matchParamsF] at h
    | cons c rest => simp [matchParamsF] at h
  | succ f ih =>
    intro l ps r h
    cases l with
    | nil => simp [matchParamsF] at h
    | cons c rest =>
      simp only [matchParamsF] at h
      split at h
      · injection h with h2
        injection h2 with h3 h4
        subst h4
        simp
      · split at h
        · split at h
          · cases hrec : matchParamsF f (rest.dropWhile notCB) with
            | none => rw [hrec] at h; simp at h
            | some pr =>
              rw [hrec] at h
              obtain ⟨ps2, r2⟩ := pr
              simp only [Option.map] at h
              injection h with h2
              injection h2 with h3 h4
              subst h4
              have h5 := ih _ _ _ hrec
              have h6 := length_dropWhile_le notCB rest
              simp only [List.length_cons]
              omega
          · split at h
            · split at h
              · injection h with h2
                injection h2 with h3 h4
                subst h4
                simp only [List.length_cons]
                omega
              · simp at h
            · simp at h
        · simp at h

theorem matchParams_lt (l ps r : Str) (h : matchParams l = some (ps, r)) :
    r.length < l.length :=
  matchParamsF_lt l.length l ps r h

theorem matchToken_lt (l ty ps r : Str) (h : matchToken l = some (ty, ps, r)) :
    r.length < l.length := by
  simp only [matchToken] at h
  split at h
  · split at h
    · simp at h
    · cases hmp : matchParams ((l.drop 4).dropWhile isTypeChar) with
      | none => rw [hmp] at h; simp at h
      | some pr =>
        rw [hmp] at h
        obtain ⟨ps2, r2⟩ := pr
        simp only [Option.map] at h
        injection h with h2
        injection h2 with h3 h5
        injection h5 with h6 h7
        subst h7
        have h8 := matchParams_lt _ _ _ hmp
        have h9 := length_dropWhile_le isTypeChar (l.drop 4)
        have h10 : (l.drop 4).length = l.length - 4 := by simp
        rename_i h4 _
        have h11 : 4 ≤ l.length := by
          have h12 := congrArg List.length h4
          simp only [List.length_take] at h12
          have h13 : ("[MT:".data).length = 4 := by decide
          omega
        omega
  · simp at h

theorem findToken_lt :
    ∀ l : Str, ∀ h : TokenHit, findToken l = some h → h.rest.length < l.length := by
  intro l
  induction l with
  | nil => intro h hh; simp [findToken] at hh
  | cons c rest ih =>
    intro h hh
    rw [findToken] at hh
    cases hmt : matchToken (c :: rest) with
    | some tr =>
      rw [hmt] at hh
      obtain ⟨ty, ps, r2⟩ := tr
      simp only at hh
      injection hh with hh2
      subst hh2
      exact matchToken_lt _ _ _ _ hmt
    | none =>
      rw [hmt] at hh
      simp only at hh
      cases hft : findToken rest with
      | none => rw [hft] at hh; simp at hh
      | some h2 =>
        rw [hft] at hh
        simp only [Option.map] at hh
        injection hh with hh2
        subst hh2
        have h3 := ih h2 hft
        simp only [List.length_cons]
        omega

theorem iterF_congr :
    ∀ f1 f2 l, l.length < f1 → l.length < f2 → iterF f1 l = iterF f2 l := by
  intro f1
  induction f1 with
  | zero => intro f2 l h1 h2; omega
  | succ f ih =>
    intro f2 l h1 h2
    cases f2 with
    | zero => omega
    | succ g =>
      simp only [iterF]
      cases hft : findToken l with
      | none => rfl
      | some h =>
        have hlt := findToken_lt l h hft
        simp only []
        rw [ih g h.rest (by omega) (by omega)]

theorem iterFne_eq (l : Str) :
    iterFne l =
      match findToken l with
      | some h => (tTEXT, unescape h.pre) :: (h.ty, lstripComma h.ps) :: iterFne h.rest
      | none => [(tTEXT, unescape l)] := by
  show iterF (l.length + 1) l = _
  simp only [iterF]
  cases hft : findToken l with
  | none => rfl
  | some h =>
    have hlt := findToken_lt l h hft
    simp only []
    rw [iterF_congr l.length (h.rest.length + 1) h.rest (by omega) (by omega)]
    rfl

theorem reduceF_congr :
    ∀ f1 f2 l, l.length ≤ f1 → l.length ≤ f2 → reduceF f1 l = reduceF f2 l := by
  intro f1
  induction f1 with
  | zero =>
    intro f2 l h1 h2
    match l with
    | [] => cases f2 <;> rfl
    | [s] => cases f2 <;> rfl
    | s1 :: s2 :: rest => simp at h1
  | succ f ih =>
    intro f2 l h1 h2
    match l with
    | [] => cases f2 <;> rfl
    | [s] => cases f2 <;> rfl
    | s1 :: s2 :: rest =>
      match f2 with
      | 0 => simp at h2
      | g + 1 =>
        simp only [List.length_cons] at h1 h2
        simp only [reduceF]
        by_cases hb : s1.type = tTEXT ∧ s2.type = tTEXT
        · rw [if_pos hb, if_pos hb]
          cases dictGet s1.data tTEXT with
          | none => rfl
          | some t1 =>
            cases dictGet s2.data tTEXT with
            | none => rfl
            | some t2 =>
              exact ih g _ (by simp; omega) (by simp; omega)
        · rw [if_neg hb, if_neg hb]
          rw [ih g (s2 :: rest) (by simp; omega) (by simp; omega)]

theorem reduceM_cons₂ (s1 s2 : MessageSegment) (rest : List MessageSegment) :
    reduceM (s1 :: s2 :: rest) =
      if s1.type = tTEXT ∧ s2.type = tTEXT then
        match dictGet s1.data tTEXT, dictGet s2.data tTEXT with
        | some t1, some t2 =>
          reduceM (⟨s1.type, dictInsert s1.data tTEXT (t1 ++ t2)⟩ :: rest)
        | _, _ => none
      else (reduceM (s2 :: rest)).map (fun r => s1 :: r) := by
  show reduceF (rest.length + 1 + 1) (s1 :: s2 :: rest) = _
  simp only [reduceF]
  by_cases hb : s1.type = tTEXT ∧ s2.type = tTEXT
  · rw [if_pos hb, if_pos hb]
    cases dictGet s1.data tTEXT with
    | none => rfl
    | some t1 =>
      cases dictGet s2.data tTEXT with
      | none => rfl
      | some t2 =>
        exact reduceF_congr _ _ _ (by simp) (by simp)
  · rw [if_neg hb, if_neg hb]
    rw [reduceF_congr (rest.length + 1) (s2 :: rest).length (s2 :: rest)
      (by simp) (by simp)]
    rfl

theorem dictInsert_get_self (d : List (Str × Str)) (k v : Str)
    (h : dictGet d k = some v) : dictInsert d k v = d := by
  induction d with
  | nil => simp [dictGet] at h
  | cons kv rest ih =>
    obtain ⟨k2, v2⟩ := kv
    rw [dictGet] at h
    rw [dictInsert]
    by_cases hk : k2 = k
    · rw [if_pos hk] at h
      rw [if_pos hk]
      injection h with hv
      rw [hv]
    · rw [if_neg hk] at h
      rw [if_neg hk, ih h]

/-- Claim C2: for every string `s`,
`unescape(escape(s, escape_comma=true)) = s`, including when `s` already
contains `&`, `[`, `]` or `,`. -/
theorem C2_escape_unescape_inverse (s : Str) : unescape (escape s true) = s :=
  unescape_escape s

/-- Claim C3, counterexample: concatenating a `Message` with an integer
(`5`), a value of unrecognized shape, does not fail with `InvalidMessage`:
`__add__` falls through every `isinstance` branch and returns the copy of
the left operand unchanged.  (`none` would model the claimed exception.) -/
theorem C3_counterexample :
    msgAdd [⟨"at".data, [("qq".data, "1".data)]⟩] (PyVal.pint 5) =
      some [⟨"at".data, [("qq".data, "1".data)]⟩] := by decide

/-- Claim C3, amended: for every Message `m` and every value `other` of
unrecognized shape (not a Message, Segment, mapping, sequence or string),
`m + other` does not raise; it returns `Message(m)`, the re-normalized
copy of the left operand, unchanged by `other`. -/
theorem C3_amended (self : List MessageSegment) (v : PyVal)
    (h : unrecognizedShape v = true) :
    msgAdd self v = msgExtendSegs [] self := by
  cases v with
  | pint n => show (msgExtendSegs [] self).bind (fun r => some r) = _
              cases msgExtendSegs [] self <;> rfl
  | pnone => show (msgExtendSegs [] self).bind (fun r => some r) = _
             cases msgExtendSegs [] self <;> rfl
  | pmsg l => simp [unrecognizedShape] at h
  | pseg s => simp [unrecognizedShape] at h
  | plist l => simp [unrecognizedShape] at h
  | pdict d => simp [unrecognizedShape] at h
  | pstr s => simp [unrecognizedShape] at h

theorem C3_amended_witness :
    msgAdd [⟨"face".data, [("id".data, "3".data)]⟩] PyVal.pnone =
      msgExtendSegs [] [⟨"face".data, [("id".data, "3".data)]⟩] :=
  C3_amended [⟨"face".data, [("id".data, "3".data)]⟩] PyVal.pnone (by decide)

/-- Claim C5 (the claim is right, the code has a bug): constructing a
`MessageSegment` from the mapping `dict(type=at, qq=1)` succeeds and stores
the key `qq` — `dict.update` bypasses the guarded `__setitem__`, so a third
field is representable even though direct assignment rejects it. -/
theorem C5_extra_field_representable :
    msInit (some [(tTYPE, PyV.vstr ("at".data)), ("qq".data, PyV.vstr ("1".data))])
        none none =
      some [(tTYPE, PyV.vstr ("at".data)), ("qq".data, PyV.vstr ("1".data))] ∧
      "qq".data ≠ tTYPE ∧ "qq".data ≠ tDATA := by decide

/-- Claim C10: constructing a `Message` from a value that is neither a
string, a list, a mapping nor absent (e.g. an integer) silently yields an
empty Message and raises nothing. -/
theorem C10_init_unrecognized_empty (v : PyVal) (h : unrecognizedShape v = true) :
    msgInit v = some [] := by
  cases v with
  | pint n => rfl
  | pnone => rfl
  | pmsg l => simp [unrecognizedShape] at h
  | pseg s => simp [unrecognizedShape] at h
  | plist l => simp [unrecognizedShape] at h
  | pdict d => simp [unrecognizedShape] at h
  | pstr s => simp [unrecognizedShape] at h

theorem C10_witness : msgInit (PyVal.pint 42) = some [] :=
  C10_init_unrecognized_empty (PyVal.pint 42) (by decide)

theorem eptLoop_fail (d : List (Str × Str)) (hd : dictGet d tTEXT = none) :
    ∀ m1 m2 acc, eptLoop (m1 ++ ⟨tTEXT, d⟩ :: m2) acc = none := by
  intro m1
  induction m1 with
  | nil =>
    intro m2 acc
    show eptLoop (⟨tTEXT, d⟩ :: m2) acc = none
    rw [eptLoop]
    rw [if_pos rfl]
    rw [hd]
  | cons s m1 ih =>
    intro m2 acc
    show eptLoop (s :: (m1 ++ ⟨tTEXT, d⟩ :: m2)) acc = none
    rw [eptLoop]
    by_cases hs : s.type = tTEXT
    · rw [if_pos hs]
      cases dictGet s.data tTEXT with
      | none => rfl
      | some t => exact ih m2 (acc ++ ' ' :: t)
    · rw [if_neg hs]
      exact ih m2 acc

/-- Claim C4, counterexample: appending a `text` segment whose params lack
the `text` key raises `KeyError` (the `elif` in `append` evaluates
`obj.data['text']`) instead of treating the content as empty. -/
theorem C4_counterexample : msgAppendSeg [] ⟨tTEXT, []⟩ = none := by decide

/-- Claim C4, amended: for a `text` segment lacking the `text` key, only
segment rendering treats the content as the empty string (and renders
nothing); `Message.append` and `extract_plain_text` instead raise
`KeyError` when they touch such a segment. -/
theorem C4_amended (d : List (Str × Str)) (self m1 m2 : List MessageSegment)
    (h : dictGet d tTEXT = none) :
    segStr ⟨tTEXT, d⟩ = [] ∧ msgAppendSeg self ⟨tTEXT, d⟩ = none ∧
      extractPlainText (m1 ++ ⟨tTEXT, d⟩ :: m2) false = none := by
  refine ⟨?_, ?_, ?_⟩
  · show segStr ⟨tTEXT, d⟩ = []
    rw [segStr]
    rw [if_pos rfl]
    show escape (dictGetD d tTEXT []) false = []
    rw [dictGetD, h]
    rfl
  · rw [msgAppendSeg]
    cases hl : self.getLast? with
    | none =>
      show msgAppendPlain self ⟨tTEXT, d⟩ = none
      rw [msgAppendPlain]
      rw [if_neg (by simp)]
      rw [h]
    | some last =>
      dsimp only
      by_cases hb : last.type = tTEXT ∧ (⟨tTEXT, d⟩ : MessageSegment).type = tTEXT
      · rw [if_pos hb]
        show (match dictGet last.data tTEXT, dictGet d tTEXT with
          | some t1, some t2 =>
            some (self.dropLast ++
              [⟨last.type, dictInsert last.data tTEXT (t1 ++ t2)⟩])
          | _, _ => none) = none
        rw [h]
        cases dictGet last.data tTEXT <;> rfl
      · rw [if_neg hb]
        show msgAppendPlain self ⟨tTEXT, d⟩ = none
        rw [msgAppendPlain]
        rw [if_neg (by simp)]
        rw [h]
  · show extractPlainText (m1 ++ ⟨tTEXT, d⟩ :: m2) false = none
    rw [extractPlainText]
    show (eptLoop (m1 ++ ⟨tTEXT, d⟩ :: m2) []).map _ = none
    rw [eptLoop_fail d h m1 m2 []]
    rfl

theorem C4_amended_witness :
    segStr ⟨tTEXT, [("face".data, "1".data)]⟩ = [] ∧
      msgAppendSeg [⟨"at".data, []⟩] ⟨tTEXT, [("face".data, "1".data)]⟩ = none ∧
      extractPlainText [⟨tTEXT, [("face".data, "1".data)]⟩] false = none :=
  C4_amended [("face".data, "1".data)] [⟨"at".data, []⟩] [] [] (by decide)

theorem prefixSpaces_eq_joinSpace :
    ∀ rest t, prefixSpaces (t :: rest) = ' ' :: specJoinSpace (t :: rest) := by
  intro rest
  induction rest with
  | nil => intro t; simp [prefixSpaces, specJoinSpace]
  | cons r rs ih =>
    intro t
    show (' ' :: t) ++ prefixSpaces (r :: rs) = ' ' :: specJoinSpace (t :: r :: rs)
    rw [ih r]
    rfl

theorem eptLoop_acc :
    ∀ m acc, (∀ s ∈ m, s.type = tTEXT → (dictGet s.data tTEXT).isSome = true) →
      eptLoop m acc = some (acc ++ prefixSpaces (textsOf m)) := by
  intro m
  induction m with
  | nil => intro acc h; simp [eptLoop, textsOf, prefixSpaces]
  | cons s rest ih =>
    intro acc h
    rw [eptLoop]
    by_cases hs : s.type = tTEXT
    · rw [if_pos hs]
      have hsome := h s (by simp) hs
      obtain ⟨t, ht⟩ := Option.isSome_iff_exists.mp hsome
      rw [ht]
      dsimp only
      rw [ih (acc ++ ' ' :: t) (fun s2 hs2 => h s2 (by simp [hs2]))]
      have htx : textsOf (s :: rest) = t :: textsOf rest := by
        rw [textsOf, List.filter_cons, if_pos (by simp [hs])]
        show (s :: List.filter _ rest).map _ = _
        rw [List.map_cons]
        rw [show dictGetD s.data tTEXT [] = t by rw [dictGetD, ht]; rfl]
        rfl
      rw [htx]
      show some (acc ++ ' ' :: t ++ prefixSpaces (textsOf rest)) =
        some (acc ++ ((' ' :: t) ++ prefixSpaces (textsOf rest)))
      rw [List.append_assoc]
    · rw [if_neg hs]
      rw [ih acc (fun s2 hs2 => h s2 (by simp [hs2]))]
      have htx : textsOf (s :: rest) = textsOf rest := by
        rw [textsOf, List.filter_cons, if_neg (by simp [hs])]
        rfl
      rw [htx]

/-- Claim C6, counterexample: `extract_plain_text` raises `KeyError` on a
Message holding a `text` segment without the `text` key, instead of
returning the space-joined concatenation the claim promises for every
Message. -/
theorem C6_counterexample :
    extractPlainText [⟨"at".data, [("qq".data, "1".data)]⟩, ⟨tTEXT, []⟩] false =
      none := by decide

/-- Claim C6, amended: for every Message whose `text` segments all carry
the `text` key, `extract_plain_text` returns the text contents of the
`text` segments in order, joined by a single space, with no leading or
trailing separator; in particular `[text hi, at qq 1, text there]` gives
`hi there` (see the witness). -/
theorem C6_amended (m : List MessageSegment) (h : textKeyed m = true) :
    extractPlainText m false = some (plainTextOfSpec m) := by
  have h2 : ∀ s ∈ m, s.type = tTEXT → (dictGet s.data tTEXT).isSome = true := by
    intro s hs hst
    have h3 := (List.all_eq_true).mp h s hs
    rw [Bool.or_eq_true] at h3
    cases h3 with
    | inl h4 => rw [bne_iff_ne] at h4; exact absurd hst h4
    | inr h4 => exact h4
  rw [extractPlainText]
  show (eptLoop m []).map _ = _
  rw [eptLoop_acc m [] h2]
  show some (if (([] ++ prefixSpaces (textsOf m)) : Str).isEmpty then _ else _) = _
  rw [List.nil_append]
  rw [plainTextOfSpec]
  show some _ = some (specJoinSpace (textsOf m))
  cases htx : textsOf m with
  | nil => rfl
  | cons t rest =>
    rw [prefixSpaces_eq_joinSpace rest t]
    rfl

theorem C6_amended_witness :
    extractPlainText
      [⟨tTEXT, [(tTEXT, "hi".data)]⟩, ⟨"at".data, [("qq".data, "1".data)]⟩,
        ⟨tTEXT, [(tTEXT, "there".data)]⟩] false = some ("hi there".data) :=
  C6_amended
    [⟨tTEXT, [(tTEXT, "hi".data)]⟩, ⟨"at".data, [("qq".data, "1".data)]⟩,
      ⟨tTEXT, [(tTEXT, "there".data)]⟩] (by decide)

theorem getLast?_none_eq_nil (l : List MessageSegment) (h : l.getLast? = none) :
    l = [] := by
  cases l with
  | nil => rfl
  | cons c rest => simp [List.getLast?] at h

theorem getLast?_decomp :
    ∀ (l : List MessageSegment) s, l.getLast? = some s → l = l.dropLast ++ [s] := by
  intro l
  induction l with
  | nil => intro s h; simp at h
  | cons c rest ih =>
    intro s h
    cases rest with
    | nil =>
      simp at h
      rw [h]
      rfl
    | cons c2 rest2 =>
      have h2 : (c2 :: rest2).getLast? = some s := by
        rw [← h]
        rfl
      have h3 := ih s h2
      show c :: (c2 :: rest2) = (c :: (c2 :: rest2)).dropLast ++ [s]
      rw [List.dropLast_cons₂]
      rw [List.cons_append]
      rw [← h3]

/-- Claim C7, counterexample: when the Message's last segment is a `text`
segment lacking the `text` key, appending an empty `text` segment raises
`KeyError` in the merge step instead of leaving the Message unchanged. -/
theorem C7_counterexample :
    msgAppendSeg [⟨tTEXT, []⟩] ⟨tTEXT, [(tTEXT, [])]⟩ = none := by decide

/-- Claim C7, amended: appending a `text` segment with empty text content
to a Message whose last segment, if of type `text`, carries the `text` key,
leaves a non-empty Message unchanged and inserts the segment into an empty
Message as its single placeholder element. -/
theorem C7_amended (self : List MessageSegment) (obj : MessageSegment)
    (ht : obj.type = tTEXT) (hc : dictGet obj.data tTEXT = some [])
    (hlast : lastTextKeyed self = true) :
    msgAppendSeg self obj = some (if self.isEmpty then [obj] else self) := by
  rw [msgAppendSeg]
  cases hl : self.getLast? with
  | none =>
    have hnil := getLast?_none_eq_nil self hl
    subst hnil
    show msgAppendPlain [] obj = some [obj]
    rw [msgAppendPlain]
    rw [if_neg (by simp [ht])]
    rw [hc]
    rfl
  | some last =>
    have hdec := getLast?_decomp self last hl
    have hne : self ≠ [] := by
      intro h0
      rw [h0] at hl
      simp at hl
    have hempty : self.isEmpty = false := by
      cases self with
      | nil => exact absurd rfl hne
      | cons a b => rfl
    dsimp only
    by_cases hb : last.type = tTEXT
    · rw [if_pos ⟨hb, ht⟩]
      have hsome : (dictGet last.data tTEXT).isSome = true := by
        rw [lastTextKeyed, hl] at hlast
        rw [Bool.or_eq_true] at hlast
        cases hlast with
        | inl h4 => rw [bne_iff_ne] at h4; exact absurd hb h4
        | inr h4 => exact h4
      obtain ⟨t1, ht1⟩ := Option.isSome_iff_exists.mp hsome
      rw [ht1, hc]
      dsimp only
      rw [List.append_nil]
      rw [dictInsert_get_self last.data tTEXT t1 ht1]
      rw [hempty]
      rw [if_neg (by simp)]
      rw [show (⟨last.type, last.data⟩ : MessageSegment) = last from rfl]
      rw [← hdec]
    · rw [if_neg (by intro h4; exact hb h4.1)]
      rw [msgAppendPlain]
      rw [if_neg (by simp [ht])]
      rw [hc]
      dsimp only
      rw [hempty]
      rw [if_neg (by simp), if_neg (by simp)]
      rfl

theorem C7_amended_witness :
    msgAppendSeg [⟨tTEXT, [(tTEXT, "a".data)]⟩] ⟨tTEXT, [(tTEXT, [])]⟩ =
      some [⟨tTEXT, [(tTEXT, "a".data)]⟩] :=
  C7_amended [⟨tTEXT, [(tTEXT, "a".data)]⟩] ⟨tTEXT, [(tTEXT, [])]⟩
    (by decide) (by decide) (by decide)

theorem reduceM_head :
    ∀ n x xs r, (x :: xs).length ≤ n → reduceM (x :: xs) = some r →
      ∃ y ys, r = y :: ys ∧ y.type = x.type := by
  intro n
  induction n with
  | zero => intro x xs r h1 h2; simp at h1
  | succ n ih =>
    intro x xs r h1 h2
    cases xs with
    | nil =>
      have h3 : r = [x] := by
        rw [show reduceM [x] = some [x] from rfl] at h2
        injection h2 with h4
        exact h4.symm
      exact ⟨x, [], h3, rfl⟩
    | cons s2 rest =>
      rw [reduceM_cons₂] at h2
      by_cases hb : x.type = tTEXT ∧ s2.type = tTEXT
      · rw [if_pos hb] at h2
        cases hg1 : dictGet x.data tTEXT with
        | none => rw [hg1] at h2; cases dictGet s2.data tTEXT <;> simp at h2
        | some t1 =>
          cases hg2 : dictGet s2.data tTEXT with
          | none => rw [hg1, hg2] at h2; simp at h2
          | some t2 =>
            rw [hg1, hg2] at h2
            dsimp only at h2
            have h5 := ih ⟨x.type, dictInsert x.data tTEXT (t1 ++ t2)⟩ rest r
              (by simp at h1 ⊢; omega) h2
            obtain ⟨y, ys, hr, hy⟩ := h5
            exact ⟨y, ys, hr, hy⟩
      · rw [if_neg hb] at h2
        cases hr2 : reduceM (s2 :: rest) with
        | none => rw [hr2] at h2; simp at h2
        | some r2 =>
          rw [hr2] at h2
          simp only [Option.map] at h2
          injection h2 with h4
          exact ⟨x, r2, h4.symm, rfl⟩

theorem reduceM_isReduced :
    ∀ n m r, m.length ≤ n → reduceM m = some r → isReducedB r = true := by
  intro n
  induction n with
  | zero =>
    intro m r h1 h2
    match m with
    | [] =>
      rw [show reduceM [] = some [] from rfl] at h2
      injection h2 with h3
      rw [← h3]
      rfl
    | s :: rest => simp at h1
  | succ n ih =>
    intro m r h1 h2
    match m with
    | [] =>
      rw [show reduceM [] = some [] from rfl] at h2
      injection h2 with h3
      rw [← h3]
      rfl
    | [s] =>
      rw [show reduceM [s] = some [s] from rfl] at h2
      injection h2 with h3
      rw [← h3]
      rfl
    | s1 :: s2 :: rest =>
      rw [reduceM_cons₂] at h2
      by_cases hb : s1.type = tTEXT ∧ s2.type = tTEXT
      · rw [if_pos hb] at h2
        cases hg1 : dictGet s1.data tTEXT with
        | none => rw [hg1] at h2; cases dictGet s2.data tTEXT <;> simp at h2
        | some t1 =>
          cases hg2 : dictGet s2.data tTEXT with
          | none => rw [hg1, hg2] at h2; simp at h2
          | some t2 =>
            rw [hg1, hg2] at h2
            dsimp only at h2
            exact ih _ r (by simp at h1 ⊢; omega) h2
      · rw [if_neg hb] at h2
        cases hr2 : reduceM (s2 :: rest) with
        | none => rw [hr2] at h2; simp at h2
        | some r2 =>
          rw [hr2] at h2
          simp only [Option.map] at h2
          injection h2 with h4
          obtain ⟨y, ys, hr, hy⟩ :=
            reduceM_head (s2 :: rest).length s2 rest r2 (Nat.le_refl _) hr2
          have hred2 : isReducedB r2 = true :=
            ih (s2 :: rest) r2 (by simp at h1 ⊢; omega) hr2
          rw [← h4, hr]
          rw [hr] at hred2
          show ((!(s1.type == tTEXT && y.type == tTEXT)) && isReducedB (y :: ys)) = true
          rw [hred2, Bool.and_true]
          rw [hy]
          by_cases h5 : s1.type = tTEXT
          · by_cases h6 : s2.type = tTEXT
            · exact absurd ⟨h5, h6⟩ hb
            · simp [h6]
          · simp [h5]

/-- Claim C9: after a successful `reduce()`, no two consecutive segments
both have type `text`. -/
theorem C9_reduce_no_adjacent_text (m r : List MessageSegment)
    (h : reduceM m = some r) : isReducedB r = true :=
  reduceM_isReduced m.length m r (Nat.le_refl _) h

theorem C9_witness : isReducedB [⟨tTEXT, [(tTEXT, "ab".data)]⟩] = true :=
  C9_reduce_no_adjacent_text
    [⟨tTEXT, [(tTEXT, "a".data)]⟩, ⟨tTEXT, [(tTEXT, "b".data)]⟩]
    [⟨tTEXT, [(tTEXT, "ab".data)]⟩] (by decide)

theorem buildParams_total :
    ∀ pieces d, (∀ p ∈ pieces, ((splitEq1 p).2.isSome = true)) →
      (buildParams pieces d).isSome = true := by
  intro pieces
  induction pieces with
  | nil => intro d h; rfl
  | cons p rest ih =>
    intro d h
    rw [buildParams]
    have hp := h p (by simp)
    cases hsp : splitEq1 p with
    | mk k vo =>
      rw [hsp] at hp
      cases vo with
      | none => simp at hp
      | some v =>
        dsimp only
        exact ih (dictInsert d k v) (fun p2 hp2 => h p2 (by simp [hp2]))

theorem splitIterGo_total :
    ∀ L, (∀ pr ∈ L, pr.1 ≠ tTEXT → goodExtra pr.2 = true) →
      (splitIterGo L).isSome = true := by
  intro L
  induction L with
  | nil => intro h; rfl
  | cons pr rest ih =>
    intro h
    obtain ⟨name, extra⟩ := pr
    rw [splitIterGo]
    by_cases hn : name = tTEXT
    · rw [if_pos hn]
      by_cases he : extra.isEmpty
      · rw [if_pos he]
        exact ih (fun p2 h2 => h p2 (by simp [h2]))
      · rw [if_neg he]
        obtain ⟨segs, hsegs⟩ :=
          Option.isSome_iff_exists.mp (ih (fun p2 h2 => h p2 (by simp [h2])))
        rw [hsegs]
        rfl
    · rw [if_neg hn]
      have hgood := h (name, extra) (by simp) hn
      rw [goodExtra] at hgood
      have h4 := buildParams_total _ [] (by
        intro p hp
        exact (List.all_eq_true).mp hgood p hp)
      have h4b : (parseParams extra).isSome = true := h4
      obtain ⟨d, hd⟩ := Option.isSome_iff_exists.mp h4b
      rw [hd]
      dsimp only
      obtain ⟨segs, hsegs⟩ :=
        Option.isSome_iff_exists.mp (ih (fun p2 h2 => h p2 (by simp [h2])))
      rw [hsegs]
      rfl

/-- Claim C8, counterexample: parsing can fail.  The bracketed token
`[MT:at,qq]` is matched by the token regex, but its parameter `qq`
contains no `=`, so the dict build raises `ValueError` — there is no
fall-through to literal text. -/
theorem C8_counterexample : splitIter ("[MT:at,qq]".data) = none := by decide

theorem C8_amended (s : Str)
    (h : ∀ pr ∈ iterFne s, pr.1 ≠ tTEXT → goodExtra pr.2 = true) :
    (splitIter s).isSome = true :=
  splitIterGo_total (iterFne s) h

theorem C8_amended_witness : (splitIter ("[MT:a b]".data)).isSome = true :=
  C8_amended ("[MT:a b]".data) (by decide)

theorem matchParamsF_congr :
    ∀ f1 f2 l, l.length ≤ f1 → l.length ≤ f2 →
      matchParamsF f1 l = matchParamsF f2 l := by
  intro f1
  induction f1 with
  | zero =>
    intro f2 l h1 h2
    cases l with
    | nil => cases f2 <;> rfl
    | cons c rest => simp at h1
  | succ f ih =>
    intro f2 l h1 h2
    cases l with
    | nil => cases f2 <;> rfl
    | cons c rest =>
      cases f2 with
      | zero => simp at h2
      | succ g =>
        simp only [List.length_cons, Nat.succ_le_succ_iff] at h1 h2
        simp only [matchParamsF]
        by_cases hc : c = ']'
        · rw [if_pos hc, if_pos hc]
        · rw [if_neg hc, if_neg hc]
          by_cases hc2 : c = ','
          · rw [if_pos hc2, if_pos hc2]
            by_cases hk : keyStart (rest.takeWhile notCB)
            · rw [if_pos hk, if_pos hk]
              rw [ih g (rest.dropWhile notCB)
                (Nat.le_trans (length_dropWhile_le notCB rest) h1)
                (Nat.le_trans (length_dropWhile_le notCB rest) h2)]
            · rw [if_neg hk, if_neg hk]
          · rw [if_neg hc2, if_neg hc2]

/-- The intended recurrence for `matchParams`. -/
theorem matchParams_cons (c : Char) (rest : Str) :
    matchParams (c :: rest) =
      if c = ']' then some ([], rest)
      else if c = ',' then
        if keyStart (rest.takeWhile notCB) then
          (matchParams (rest.dropWhile notCB)).map
            (fun pr => (',' :: (rest.takeWhile notCB ++ pr.1), pr.2))
        else
          match rest with
          | x :: rest3 => if x = ']' then some ([], rest3) else none
          | [] => none
      else none := by
  show matchParamsF (rest.length + 1) (c :: rest) = _
  simp only [matchParamsF]
  by_cases hc : c = ']'
  · rw [if_pos hc, if_pos hc]
  · rw [if_neg hc, if_neg hc]
    by_cases hc2 : c = ','
    · rw [if_pos hc2, if_pos hc2]
      by_cases hk : keyStart (rest.takeWhile notCB)
      · rw [if_pos hk, if_pos hk]
        rw [matchParamsF_congr rest.length (rest.dropWhile notCB).length
          (rest.dropWhile notCB) (length_dropWhile_le notCB rest) (Nat.le_refl _)]
        rfl
      · rw [if_neg hk, if_neg hk]
        rfl
    · rw [if_neg hc2, if_neg hc2]

theorem isTypeChar_spec (c : Char) (h : isTypeChar c = true) :
    notCB c = true ∧ c ≠ '=' ∧ pySpace c = false ∧ c ≠ '[' ∧ c ≠ '&' ∧ c ≠ ',' := by
  have hne : ∀ x : Char, isTypeChar x = false → c ≠ x := by
    intro x hx he
    subst he
    rw [h] at hx
    cases hx
  refine ⟨?_, hne '=' (by decide), ?_, hne '[' (by decide), hne '&' (by decide),
    hne ',' (by decide)⟩
  · rw [notCB]
    rw [beq_eq_false_iff_ne.mpr (hne ',' (by decide)),
      beq_eq_false_iff_ne.mpr (hne ']' (by decide))]
    rfl
  · rw [pySpace]
    rw [beq_eq_false_iff_ne.mpr (hne ' ' (by decide)),
      beq_eq_false_iff_ne.mpr (hne '\t' (by decide)),
      beq_eq_false_iff_ne.mpr (hne '\n' (by decide)),
      beq_eq_false_iff_ne.mpr (hne '\r' (by decide)),
      beq_eq_false_iff_ne.mpr (hne '\x0b' (by decide)),
      beq_eq_false_iff_ne.mpr (hne '\x0c' (by decide))]
    rfl

theorem reservedFree_spec (t : Str) (h : reservedFree t = true) :
    ∀ c ∈ t, c ≠ '&' ∧ c ≠ '[' ∧ c ≠ ']' ∧ c ≠ ',' := by
  intro c hc
  have h2 := (List.all_eq_true).mp h c hc
  simp only [Bool.not_eq_eq_eq_not, Bool.not_true, Bool.or_eq_false_iff,
    beq_eq_false_iff_ne] at h2
  exact ⟨h2.1.1.1, h2.1.1.2, h2.1.2, h2.2⟩

theorem reservedFree_notCB (t : Str) (h : reservedFree t = true) :
    ∀ c ∈ t, notCB c = true := by
  intro c hc
  have h2 := reservedFree_spec t h c hc
  rw [notCB, beq_eq_false_iff_ne.mpr h2.2.2.2, beq_eq_false_iff_ne.mpr h2.2.2.1]
  rfl

theorem replaceStr_id (p0 : Char) (ps repl l : Str) (h : ∀ c ∈ l, c ≠ p0) :
    replaceStr p0 ps repl l = l := by
  have h2 := replaceStr_skip_all p0 ps repl l [] h
  rw [List.append_nil] at h2
  rw [h2, replaceStr_nil, List.append_nil]

/-- On a reserved-free string, `escape` is the identity. -/
theorem escape_id (t : Str) (b : Bool) (h : reservedFree t = true) : escape t b = t := by
  have hs := reservedFree_spec t h
  rw [escape]
  rw [replaceStr_id '&' _ _ t (fun c hc => (hs c hc).1)]
  rw [replaceStr_id '[' _ _ t (fun c hc => (hs c hc).2.1)]
  rw [replaceStr_id ']' _ _ t (fun c hc => (hs c hc).2.2.1)]
  cases b with
  | false => rfl
  | true =>
    show replaceStr ',' [] _ t = t
    rw [replaceStr_id ',' _ _ t (fun c hc => (hs c hc).2.2.2)]

/-- On an ampersand-free string, `unescape` is the identity. -/
theorem unescape_id (t : Str) (h : ∀ c ∈ t, c ≠ '&') : unescape t = t := by
  rw [unescape]
  rw [replaceStr_id '&' _ _ t h, replaceStr_id '&' _ _ t h,
    replaceStr_id '&' _ _ t h, replaceStr_id '&' _ _ t h]

theorem takeWhile_append_all (p : Char → Bool) :
    ∀ l1 l2 : Str, (∀ c ∈ l1, p c = true) →
      (l1 ++ l2).takeWhile p = l1 ++ l2.takeWhile p := by
  intro l1
  induction l1 with
  | nil => intro l2 h; rfl
  | cons c rest ih =>
    intro l2 h
    rw [List.cons_append, List.takeWhile_cons, if_pos (h c (by simp))]
    rw [ih l2 (fun c2 hc2 => h c2 (by simp [hc2]))]
    rfl

theorem dropWhile_append_all (p : Char → Bool) :
    ∀ l1 l2 : Str, (∀ c ∈ l1, p c = true) →
      (l1 ++ l2).dropWhile p = l2.dropWhile p := by
  intro l1
  induction l1 with
  | nil => intro l2 h; rfl
  | cons c rest ih =>
    intro l2 h
    rw [List.cons_append, List.dropWhile_cons, if_pos (h c (by simp))]
    exact ih l2 (fun c2 hc2 => h c2 (by simp [hc2]))

theorem takeWhile_cons_false (p : Char → Bool) (c : Char) (l : Str) (h : p c = false) :
    (c :: l).takeWhile p = [] := by
  rw [List.takeWhile_cons, h]
  rfl

theorem dropWhile_cons_false (p : Char → Bool) (c : Char) (l : Str) (h : p c = false) :
    (c :: l).dropWhile p = c :: l := by
  rw [List.dropWhile_cons, h]
  rfl

theorem fmtKV_eq (kv : Str × Str) (hv : reservedFree kv.2 = true) :
    fmtKV kv = kv.1 ++ '=' :: kv.2 := by
  rw [fmtKV, escape_id kv.2 true hv]

theorem dataOKB_spec (d : List (Str × Str)) (hd : dataOKB d = true) :
    ∀ kv ∈ d, kv.1 ≠ [] ∧ (∀ c ∈ kv.1, isTypeChar c = true) ∧ reservedFree kv.2 = true := by
  intro kv hkv
  have h2 := (List.all_eq_true).mp hd kv hkv
  simp only [Bool.and_eq_true, Bool.not_eq_eq_eq_not, Bool.not_true,
    List.all_eq_true] at h2
  refine ⟨?_, fun c hc => h2.1.2 c hc, h2.2⟩
  intro he
  rw [he] at h2
  exact absurd h2.1.1 (by decide)

/-- Every character of a rendered `k=v` chunk passes `[^,\]]`. -/
theorem chunk_notCB (k v : Str) (hk : ∀ c ∈ k, isTypeChar c = true)
    (hv : reservedFree v = true) : ∀ c ∈ k ++ '=' :: v, notCB c = true := by
  intro c hc
  rw [List.mem_append] at hc
  cases hc with
  | inl h2 => exact (isTypeChar_spec c (hk c h2)).1
  | inr h2 =>
    rw [List.mem_cons] at h2
    cases h2 with
    | inl h3 => subst h3; decide
    | inr h3 => exact reservedFree_notCB v hv c h3

theorem fmtKV_ne_nil (kv : Str × Str) : (fmtKV kv).isEmpty = false := by
  rw [fmtKV]
  cases h : kv.1 with
  | nil => rfl
  | cons c k => rfl

theorem tokParamsD_cons (kv : Str × Str) (rest : List (Str × Str)) :
    tokParamsD (kv :: rest) = ',' :: joinComma ((kv :: rest).map fmtKV) := by
  rw [tokParamsD]
  have h : (joinComma ((kv :: rest).map fmtKV)).isEmpty = false := by
    rw [List.map_cons]
    cases rest with
    | nil =>
      show (fmtKV kv).isEmpty = false
      exact fmtKV_ne_nil kv
    | cons kv2 rest2 =>
      show (fmtKV kv ++ ',' :: joinComma _).isEmpty = false
      cases h2 : fmtKV kv with
      | nil => rfl
      | cons c k => rfl
  rw [h]
  rfl

theorem dataOKB_tail (kv : Str × Str) (rest : List (Str × Str))
    (h : dataOKB (kv :: rest) = true) : dataOKB rest = true := by
  rw [dataOKB, List.all_cons, Bool.and_eq_true] at h
  exact h.2

theorem matchParams_rbracket (r : Str) : matchParams (']' :: r) = some ([], r) := by
  rw [matchParams_cons, if_pos rfl]

theorem matchParams_groups :
    ∀ d r, dataOKB d = true → d ≠ [] →
      matchParams ((',' :: joinComma (d.map fmtKV)) ++ ']' :: r) =
        some (',' :: joinComma (d.map fmtKV), r) := by
  intro d
  induction d with
  | nil => intro r hd hne; exact absurd rfl hne
  | cons kv rest ih =>
    intro r hd hne
    obtain ⟨hk1, hk2, hv⟩ := dataOKB_spec _ hd kv (by simp)
    have hfmt := fmtKV_eq kv hv
    have hchunk : ∀ c ∈ fmtKV kv, notCB c = true := by
      rw [hfmt]
      exact chunk_notCB kv.1 kv.2 hk2 hv
    have hkeystart : keyStart (fmtKV kv ++ ([] : Str)) = true := by
      rw [List.append_nil, hfmt]
      cases hk : kv.1 with
      | nil => exact absurd hk hk1
      | cons c0 k =>
        show isTypeChar c0 = true
        have := hk2 c0 (by rw [hk]; simp)
        exact this
    cases rest with
    | nil =>
      show matchParams (',' :: (fmtKV kv ++ ']' :: r)) = some (',' :: fmtKV kv, r)
      rw [matchParams_cons, if_neg (by decide), if_pos rfl]
      rw [takeWhile_append_all notCB (fmtKV kv) (']' :: r) hchunk,
        takeWhile_cons_false notCB ']' r (by decide)]
      rw [dropWhile_append_all notCB (fmtKV kv) (']' :: r) hchunk,
        dropWhile_cons_false notCB ']' r (by decide)]
      rw [if_pos hkeystart]
      rw [matchParams_rbracket]
      simp only [Option.map]
      rw [List.append_nil, List.append_nil]
    | cons kv2 rest2 =>
      have hJ : joinComma ((kv :: kv2 :: rest2).map fmtKV) =
          fmtKV kv ++ ',' :: joinComma ((kv2 :: rest2).map fmtKV) := by
        rw [List.map_cons]
        rfl
      rw [hJ]
      show matchParams
          (',' :: ((fmtKV kv ++ ',' :: joinComma ((kv2 :: rest2).map fmtKV)) ++ ']' :: r)) =
        some (',' :: (fmtKV kv ++ ',' :: joinComma ((kv2 :: rest2).map fmtKV)), r)
      rw [List.append_assoc]
      rw [List.cons_append]
      rw [matchParams_cons, if_neg (by decide), if_pos rfl]
      rw [takeWhile_append_all notCB (fmtKV kv) _ hchunk,
        takeWhile_cons_false notCB ',' _ (by decide)]
      rw [dropWhile_append_all notCB (fmtKV kv) _ hchunk,
        dropWhile_cons_false notCB ',' _ (by decide)]
      rw [if_pos hkeystart]
      rw [show ',' :: (joinComma ((kv2 :: rest2).map fmtKV) ++ ']' :: r) =
        (',' :: joinComma ((kv2 :: rest2).map fmtKV)) ++ ']' :: r from rfl]
      rw [ih r (dataOKB_tail kv (kv2 :: rest2) hd) (by simp)]
      simp only [Option.map]
      rw [List.append_nil]

theorem wf_text_shape (s : MessageSegment) (hwf : wfSegB s = true)
    (h : s.type = tTEXT) :
    ∃ t, s.data = [(tTEXT, t)] ∧ t ≠ [] ∧ reservedFree t = true := by
  rw [wfSegB] at hwf
  rw [if_pos (by rw [h]; exact beq_self_eq_true tTEXT)] at hwf
  match hd : s.data with
  | [] => rw [hd] at hwf; cases hwf
  | [(k, t)] =>
    rw [hd] at hwf
    simp only [Bool.and_eq_true, beq_iff_eq, Bool.not_eq_eq_eq_not, Bool.not_true] at hwf
    refine ⟨t, ?_, ?_, hwf.2⟩
    · rw [hwf.1.1]
    · intro he
      rw [he] at hwf
      exact absurd hwf.1.2 (by decide)
  | (k, t) :: kv2 :: more => rw [hd] at hwf; cases hwf

theorem wf_nontext_spec (s : MessageSegment) (hwf : wfSegB s = true)
    (h : ¬ s.type = tTEXT) :
    s.type ≠ [] ∧ (∀ c ∈ s.type, isTypeChar c = true) ∧
      dataOKB s.data = true ∧ keysNodupB s.data = true := by
  rw [wfSegB] at hwf
  rw [if_neg (by rw [beq_eq_false_iff_ne.mpr h]; exact Bool.false_ne_true)] at hwf
  simp only [Bool.and_eq_true, Bool.not_eq_eq_eq_not, Bool.not_true,
    List.all_eq_true] at hwf
  refine ⟨?_, fun c hc => hwf.1.1.2 c hc, hwf.1.2, hwf.2⟩
  intro he
  rw [he] at hwf
  exact absurd hwf.1.1.1 (by decide)

theorem segStr_text (t : Str) (h : reservedFree t = true) :
    segStr ⟨tTEXT, [(tTEXT, t)]⟩ = t := by
  rw [segStr, if_pos rfl]
  have hg : dictGet [(tTEXT, t)] tTEXT = some t := by
    rw [dictGet, if_pos rfl]
  rw [dictGetD, hg]
  exact escape_id t false h

theorem segStr_nontext (s : MessageSegment) (hnt : ¬ s.type = tTEXT) :
    segStr s = ("[MT:".data) ++ s.type ++ tokParamsD s.data ++ ("]".data) := by
  rw [segStr, if_neg hnt]
  rfl

theorem matchToken_seg (s : MessageSegment) (hwf : wfSegB s = true)
    (hnt : ¬ s.type = tTEXT) (r : Str) :
    matchToken (segStr s ++ r) = some (s.type, tokParamsD s.data, r) := by
  obtain ⟨hty1, hty2, hdok, _⟩ := wf_nontext_spec s hwf hnt
  have harr : segStr s ++ r =
      ("[MT:".data) ++ (s.type ++ (tokParamsD s.data ++ (']' :: r))) := by
    rw [segStr_nontext s hnt]
    rw [List.append_assoc, List.append_assoc, List.append_assoc]
    rfl
  rw [harr]
  rw [matchToken]
  rw [if_pos (List.take_left' (by decide))]
  rw [List.drop_left' (by decide)]
  dsimp only
  have htw : (s.type ++ (tokParamsD s.data ++ ']' :: r)).takeWhile isTypeChar =
      s.type := by
    rw [takeWhile_append_all isTypeChar s.type _ hty2]
    cases hd : s.data with
    | nil =>
      rw [show tokParamsD [] = [] from rfl]
      rw [List.nil_append]
      rw [takeWhile_cons_false isTypeChar ']' r (by decide)]
      rw [List.append_nil]
    | cons kv rest =>
      rw [tokParamsD_cons kv rest]
      rw [List.cons_append]
      rw [takeWhile_cons_false isTypeChar ',' _ (by decide)]
      rw [List.append_nil]
  have hdw : (s.type ++ (tokParamsD s.data ++ ']' :: r)).dropWhile isTypeChar =
      tokParamsD s.data ++ ']' :: r := by
    rw [dropWhile_append_all isTypeChar s.type _ hty2]
    cases hd : s.data with
    | nil =>
      rw [show tokParamsD [] = [] from rfl]
      rw [List.nil_append]
      exact dropWhile_cons_false isTypeChar ']' r (by decide)
    | cons kv rest =>
      rw [tokParamsD_cons kv rest]
      rw [List.cons_append]
      exact dropWhile_cons_false isTypeChar ',' _ (by decide)
  rw [htw, hdw]
  have hne : s.type.isEmpty = false := by
    cases hty : s.type with
    | nil => exact absurd hty hty1
    | cons c rest => rfl
  rw [hne]
  rw [if_neg (by decide)]
  cases hd : s.data with
  | nil =>
    rw [show tokParamsD [] = [] from rfl]
    rw [List.nil_append]
    rw [matchParams_rbracket]
    rfl
  | cons kv rest =>
    rw [tokParamsD_cons kv rest]
    rw [List.cons_append]
    rw [show ',' :: (joinComma ((kv :: rest).map fmtKV) ++ ']' :: r) =
      (',' :: joinComma ((kv :: rest).map fmtKV)) ++ ']' :: r from rfl]
    rw [matchParams_groups (kv :: rest) r (by rw [← hd]; exact hdok) (by simp)]
    rfl

theorem matchToken_ne_lbracket (c : Char) (rest : Str) (h : c ≠ '[') :
    matchToken (c :: rest) = none := by
  rw [matchToken]
  rw [if_neg]
  intro heq
  have h4 : (c :: rest).take 4 = c :: rest.take 3 := rfl
  rw [h4] at heq
  rw [show ("[MT:".data) = '[' :: ("MT:".data) from rfl] at heq
  injection heq with h5
  exact h h5

theorem findToken_of_match (l ty ps r : Str) (h : matchToken l = some (ty, ps, r)) :
    findToken l = some ⟨[], ty, ps, r⟩ := by
  cases l with
  | nil =>
    rw [show matchToken [] = none from rfl] at h
    cases h
  | cons c rest =>
    rw [findToken]
    rw [h]

theorem findToken_prepend (t : Str) (ht : ∀ c ∈ t, c ≠ '[') :
    ∀ l, findToken (t ++ l) =
      (findToken l).map (fun h => ⟨t ++ h.pre, h.ty, h.ps, h.rest⟩) := by
  induction t with
  | nil =>
    intro l
    rw [List.nil_append]
    cases findToken l with
    | none => rfl
    | some h => rfl
  | cons c t2 ih =>
    intro l
    rw [List.cons_append, findToken]
    rw [matchToken_ne_lbracket c (t2 ++ l) (ht c (by simp))]
    rw [ih (fun c2 hc2 => ht c2 (by simp [hc2])) l]
    cases findToken l with
    | none => rfl
    | some h => rfl

/-- `str.split(',')` of a comma-free string. -/
theorem splitComma_nocomma (x : Str) (hx : ∀ c ∈ x, c ≠ ',') :
    splitComma x = [x] := by
  induction x with
  | nil => rfl
  | cons c rest ih =>
    rw [splitComma]
    rw [if_neg (hx c (by simp))]
    rw [ih (fun c2 hc2 => hx c2 (by simp [hc2]))]

theorem splitComma_append_comma (x y : Str) (hx : ∀ c ∈ x, c ≠ ',') :
    splitComma (x ++ ',' :: y) = x :: splitComma y := by
  induction x with
  | nil =>
    rw [List.nil_append, splitComma, if_pos rfl]
  | cons c rest ih =>
    rw [List.cons_append, splitComma]
    rw [if_neg (hx c (by simp))]
    rw [ih (fun c2 hc2 => hx c2 (by simp [hc2]))]

/-- `str.split('=', 1)` on a chunk whose key part has no `=`. -/
theorem splitEq1_chunk (k v : Str) (hk : ∀ c ∈ k, c ≠ '=') :
    splitEq1 (k ++ '=' :: v) = (k, some v) := by
  induction k with
  | nil =>
    rw [List.nil_append, splitEq1, if_pos rfl]
  | cons c rest ih =>
    rw [List.cons_append, splitEq1]
    rw [if_neg (hk c (by simp))]
    rw [ih (fun c2 hc2 => hk c2 (by simp [hc2]))]

theorem dictInsert_fresh (d : List (Str × Str)) (k v : Str)
    (h : ∀ kv ∈ d, kv.1 ≠ k) : dictInsert d k v = d ++ [(k, v)] := by
  induction d with
  | nil => rfl
  | cons kv2 rest ih =>
    obtain ⟨k2, v2⟩ := kv2
    rw [dictInsert]
    rw [if_neg (h (k2, v2) (by simp))]
    rw [ih (fun kv3 h3 => h kv3 (by simp [h3]))]
    rfl

theorem keysNodupB_tail (kv : Str × Str) (rest : List (Str × Str))
    (h : keysNodupB (kv :: rest) = true) :
    (∀ kv2 ∈ rest, kv2.1 ≠ kv.1) ∧ keysNodupB rest = true := by
  obtain ⟨k, v⟩ := kv
  rw [keysNodupB, Bool.and_eq_true] at h
  refine ⟨?_, h.2⟩
  intro kv2 h2 he
  have h3 := h.1
  rw [Bool.not_eq_eq_eq_not, Bool.not_true, List.any_eq_false] at h3
  have h4 := h3 kv2 h2
  rw [he] at h4
  simp at h4

theorem buildParams_rebuild :
    ∀ (d acc : List (Str × Str)),
      (∀ kv ∈ d, ∀ c ∈ kv.1, c ≠ '=') →
      keysNodupB d = true →
      (∀ kv ∈ d, ∀ kv2 ∈ acc, kv2.1 ≠ kv.1) →
      buildParams (d.map (fun kv => kv.1 ++ '=' :: kv.2)) acc = some (acc ++ d) := by
  intro d
  induction d with
  | nil => intro acc h1 h2 h3; rw [List.map_nil, buildParams, List.append_nil]
  | cons kv rest ih =>
    intro acc h1 h2 h3
    rw [List.map_cons, buildParams]
    rw [splitEq1_chunk kv.1 kv.2 (h1 kv (by simp))]
    dsimp only
    obtain ⟨hfresh, hnd⟩ := keysNodupB_tail kv rest h2
    rw [show dictInsert acc kv.1 kv.2 = acc ++ [(kv.1, kv.2)] from
      dictInsert_fresh acc kv.1 kv.2 (fun kv2 h4 => h3 kv (by simp) kv2 h4)]
    rw [ih (acc ++ [(kv.1, kv.2)]) (fun kv2 h4 => h1 kv2 (by simp [h4])) hnd ?hdisj]
    · rw [List.append_assoc]
      rfl
    case hdisj =>
      intro kv2 h4 kv3 h5
      rw [List.mem_append] at h5
      cases h5 with
      | inl h6 => exact h3 kv2 (by simp [h4]) kv3 h6
      | inr h6 =>
        rw [List.mem_singleton] at h6
        rw [h6]
        show kv.1 ≠ kv2.1
        exact fun he => hfresh kv2 h4 he.symm

theorem notCB_spec (c : Char) (h : notCB c = true) : c ≠ ',' ∧ c ≠ ']' := by
  rw [notCB, Bool.not_eq_eq_eq_not, Bool.not_true, Bool.or_eq_false_iff] at h
  exact ⟨beq_eq_false_iff_ne.mp h.1, beq_eq_false_iff_ne.mp h.2⟩

theorem map_fmtKV_plain :
    ∀ d : List (Str × Str), dataOKB d = true →
      d.map fmtKV = d.map (fun kv => kv.1 ++ '=' :: kv.2) := by
  intro d
  induction d with
  | nil => intro h; rfl
  | cons kv rest ih =>
    intro h
    rw [List.map_cons, List.map_cons]
    rw [fmtKV_eq kv (dataOKB_spec _ h kv (by simp)).2.2]
    rw [ih (dataOKB_tail kv rest h)]

theorem splitComma_joinComma :
    ∀ chunks : List Str, (∀ ch ∈ chunks, ∀ c ∈ ch, c ≠ ',') → chunks ≠ [] →
      splitComma (joinComma chunks) = chunks := by
  intro chunks
  induction chunks with
  | nil => intro h hne; exact absurd rfl hne
  | cons x rest ih =>
    intro h hne
    cases rest with
    | nil =>
      show splitComma x = [x]
      exact splitComma_nocomma x (h x (by simp))
    | cons y rest2 =>
      show splitComma (x ++ ',' :: joinComma (y :: rest2)) = x :: y :: rest2
      rw [splitComma_append_comma x _ (h x (by simp))]
      rw [ih (fun ch hch => h ch (by simp [hch])) (by simp)]

theorem parseParams_render (d : List (Str × Str)) (hdok : dataOKB d = true)
    (hnd : keysNodupB d = true) :
    parseParams (lstripComma (tokParamsD d)) = some d := by
  cases d with
  | nil => rfl
  | cons kv rest =>
    have hplain := map_fmtKV_plain _ hdok
    have hchunks : ∀ ch ∈ (kv :: rest).map (fun kv => kv.1 ++ '=' :: kv.2),
        ∀ c ∈ ch, notCB c = true := by
      intro ch hch c hc
      rw [List.mem_map] at hch
      obtain ⟨kv2, hkv2, he⟩ := hch
      obtain ⟨hk1, hk2, hv⟩ := dataOKB_spec _ hdok kv2 hkv2
      rw [← he] at hc
      exact chunk_notCB kv2.1 kv2.2 hk2 hv c hc
    have hheads : ∀ kv2 ∈ (kv :: rest), ∃ c0 k2, kv2.1 = c0 :: k2 ∧
        isTypeChar c0 = true := by
      intro kv2 hkv2
      obtain ⟨hk1, hk2, _⟩ := dataOKB_spec _ hdok kv2 hkv2
      cases hk : kv2.1 with
      | nil => exact absurd hk hk1
      | cons c0 k2 =>
        exact ⟨c0, k2, rfl, hk2 c0 (by rw [hk]; simp)⟩
    rw [tokParamsD_cons kv rest]
    rw [hplain]
    obtain ⟨c0, k0, hk0, hc0⟩ := hheads kv (by simp)
    have hJcons : joinComma ((kv :: rest).map (fun kv => kv.1 ++ '=' :: kv.2)) =
        c0 :: (k0 ++ '=' :: kv.2 ++
          match rest with
          | [] => []
          | _ :: _ => ',' :: joinComma (rest.map (fun kv => kv.1 ++ '=' :: kv.2))) := by
      cases rest with
      | nil =>
        show kv.1 ++ '=' :: kv.2 = _
        rw [hk0]
        rw [List.cons_append]
        rw [List.append_nil]
      | cons kv2 rest2 =>
        show (kv.1 ++ '=' :: kv.2) ++ ',' :: joinComma _ = _
        rw [hk0]
        simp [List.append_assoc]
    have hstrip : lstripComma (',' ::
        joinComma ((kv :: rest).map (fun kv => kv.1 ++ '=' :: kv.2))) =
        joinComma ((kv :: rest).map (fun kv => kv.1 ++ '=' :: kv.2)) := by
      rw [lstripComma]
      rw [List.dropWhile_cons, if_pos (by rfl)]
      rw [hJcons]
      rw [List.dropWhile_cons,
        if_neg (by
          rw [beq_eq_false_iff_ne.mpr (isTypeChar_spec c0 hc0).2.2.2.2.2]
          exact Bool.false_ne_true)]
    rw [hstrip]
    rw [parseParams]
    rw [splitComma_joinComma _ (fun ch hch c hc => (notCB_spec c (hchunks ch hch c hc)).1)
      (by simp)]
    have hmapdrop : ((kv :: rest).map (fun kv => kv.1 ++ '=' :: kv.2)).map
        (fun x => x.dropWhile pySpace) =
        (kv :: rest).map (fun kv => kv.1 ++ '=' :: kv.2) := by
      rw [List.map_map]
      apply List.map_congr_left
      intro kv2 hkv2
      obtain ⟨c2, k2, hk2, hc2⟩ := hheads kv2 hkv2
      show ((kv2.1 ++ '=' :: kv2.2).dropWhile pySpace) = kv2.1 ++ '=' :: kv2.2
      rw [hk2, List.cons_append]
      exact dropWhile_cons_false pySpace c2 _ (isTypeChar_spec c2 hc2).2.2.1
    rw [hmapdrop]
    have hfilter : ((kv :: rest).map (fun kv => kv.1 ++ '=' :: kv.2)).filter
        (fun x => !x.isEmpty) = (kv :: rest).map (fun kv => kv.1 ++ '=' :: kv.2) := by
      apply List.filter_eq_self.mpr
      intro ch hch
      rw [List.mem_map] at hch
      obtain ⟨kv2, hkv2, he⟩ := hch
      obtain ⟨c2, k2, hk2, _⟩ := hheads kv2 hkv2
      rw [← he, hk2, List.cons_append]
      rfl
    rw [hfilter]
    have hnoeq : ∀ kv2 ∈ (kv :: rest), ∀ c ∈ kv2.1, c ≠ '=' := by
      intro kv2 hkv2 c hc
      obtain ⟨_, hk2, _⟩ := dataOKB_spec _ hdok kv2 hkv2
      exact (isTypeChar_spec c (hk2 c hc)).2.1
    rw [buildParams_rebuild (kv :: rest) [] hnoeq hnd (fun kv2 _ kv3 h3 => absurd h3 (by simp))]
    rw [List.nil_append]

theorem wfMsgB_cons (s : MessageSegment) (rest : List MessageSegment)
    (h : wfMsgB (s :: rest) = true) : wfSegB s = true ∧ wfMsgB rest = true := by
  rw [wfMsgB, List.all_cons, Bool.and_eq_true] at h
  exact h

theorem isReducedB_cons₂ (s1 s2 : MessageSegment) (rest : List MessageSegment)
    (h : isReducedB (s1 :: s2 :: rest) = true) :
    ¬(s1.type = tTEXT ∧ s2.type = tTEXT) ∧ isReducedB (s2 :: rest) = true := by
  rw [show isReducedB (s1 :: s2 :: rest) =
    ((!(s1.type == tTEXT && s2.type == tTEXT)) && isReducedB (s2 :: rest)) from rfl] at h
  rw [Bool.and_eq_true, Bool.not_eq_eq_eq_not, Bool.not_true] at h
  refine ⟨?_, h.2⟩
  intro h2
  have h3 := h.1
  rw [beq_iff_eq.mpr h2.1, beq_iff_eq.mpr h2.2] at h3
  cases h3

theorem msgStr_cons (s : MessageSegment) (rest : List MessageSegment) :
    msgStr (s :: rest) = segStr s ++ msgStr rest := rfl

theorem isEmpty_false_of_ne_nil (t : Str) (h : t ≠ []) : t.isEmpty = false := by
  cases t with
  | nil => exact absurd rfl h
  | cons c rest => rfl

theorem reduceM_noop :
    ∀ n r, r.length ≤ n → isReducedB r = true → reduceM r = some r := by
  intro n
  induction n with
  | zero =>
    intro r h1 h2
    match r with
    | [] => rfl
    | s :: rest => simp at h1
  | succ n ih =>
    intro r h1 h2
    match r with
    | [] => rfl
    | [s] => rfl
    | s1 :: s2 :: rest =>
      obtain ⟨hb, htail⟩ := isReducedB_cons₂ s1 s2 rest h2
      rw [reduceM_cons₂, if_neg hb]
      rw [ih (s2 :: rest) (by simp at h1 ⊢; omega) htail]
      rfl

theorem reduceM_wf_aux :
    ∀ n m, m.length ≤ n → wfMsgB m = true →
      ∃ r, reduceM m = some r ∧ wfMsgB r = true ∧ isReducedB r = true ∧
        msgStr r = msgStr m := by
  intro n
  induction n with
  | zero =>
    intro m h1 h2
    match m with
    | [] => exact ⟨[], rfl, rfl, rfl, rfl⟩
    | s :: rest => simp at h1
  | succ n ih =>
    intro m h1 h2
    match m with
    | [] => exact ⟨[], rfl, rfl, rfl, rfl⟩
    | [s] => exact ⟨[s], rfl, h2, rfl, rfl⟩
    | s1 :: s2 :: rest =>
      obtain ⟨hw1, hwtail⟩ := wfMsgB_cons s1 _ h2
      obtain ⟨hw2, hwrest⟩ := wfMsgB_cons s2 _ hwtail
      by_cases hb : s1.type = tTEXT ∧ s2.type = tTEXT
      · obtain ⟨t1, hd1, ht1ne, ht1rf⟩ := wf_text_shape s1 hw1 hb.1
        obtain ⟨t2, hd2, ht2ne, ht2rf⟩ := wf_text_shape s2 hw2 hb.2
        have hg1 : dictGet s1.data tTEXT = some t1 := by rw [hd1, dictGet, if_pos rfl]
        have hg2 : dictGet s2.data tTEXT = some t2 := by rw [hd2, dictGet, if_pos rfl]
        have hmd : dictInsert s1.data tTEXT (t1 ++ t2) = [(tTEXT, t1 ++ t2)] := by
          rw [hd1, dictInsert, if_pos rfl]
        have hrf12 : reservedFree (t1 ++ t2) = true := by
          rw [reservedFree, List.all_append]
          rw [show t1.all _ = true from ht1rf, show t2.all _ = true from ht2rf]
          rfl
        have hne12 : t1 ++ t2 ≠ [] := by
          cases t1 with
          | nil => exact absurd rfl ht1ne
          | cons c k => simp
        have hwm : wfSegB ⟨tTEXT, [(tTEXT, t1 ++ t2)]⟩ = true := by
          rw [wfSegB]
          rw [if_pos (beq_self_eq_true tTEXT)]
          show (tTEXT == tTEXT && !(t1 ++ t2).isEmpty && reservedFree (t1 ++ t2)) = true
          rw [beq_self_eq_true, isEmpty_false_of_ne_nil _ hne12, hrf12]
          rfl
        have hwlist : wfMsgB (⟨tTEXT, [(tTEXT, t1 ++ t2)]⟩ :: rest) = true := by
          rw [wfMsgB, List.all_cons, hwm]
          rw [show (rest.all wfSegB) = wfMsgB rest from rfl, hwrest]
          rfl
        obtain ⟨r, hr, hwr, hir, hstr⟩ :=
          ih (⟨tTEXT, [(tTEXT, t1 ++ t2)]⟩ :: rest) (by simp at h1 ⊢; omega) hwlist
        refine ⟨r, ?_, hwr, hir, ?_⟩
        · rw [reduceM_cons₂, if_pos hb, hg1, hg2]
          dsimp only
          rw [hmd, hb.1]
          exact hr
        · rw [hstr]
          have hs1 : s1 = ⟨tTEXT, [(tTEXT, t1)]⟩ := by
            cases s1 with
            | mk ty1 da1 =>
              rw [show ty1 = tTEXT from hb.1, show da1 = [(tTEXT, t1)] from hd1]
          have hs2 : s2 = ⟨tTEXT, [(tTEXT, t2)]⟩ := by
            cases s2 with
            | mk ty2 da2 =>
              rw [show ty2 = tTEXT from hb.2, show da2 = [(tTEXT, t2)] from hd2]
          rw [msgStr_cons, msgStr_cons, msgStr_cons]
          rw [segStr_text (t1 ++ t2) hrf12]
          rw [hs1, hs2, segStr_text t1 ht1rf, segStr_text t2 ht2rf]
          rw [List.append_assoc]
      · obtain ⟨r2, hr2, hwr2, hir2, hstr2⟩ :=
          ih (s2 :: rest) (by simp at h1 ⊢; omega) hwtail
        obtain ⟨y, ys, hy, hyt⟩ :=
          reduceM_head (s2 :: rest).length s2 rest r2 (Nat.le_refl _) hr2
        refine ⟨s1 :: r2, ?_, ?_, ?_, ?_⟩
        · rw [reduceM_cons₂, if_neg hb, hr2]
          rfl
        · rw [wfMsgB, List.all_cons, hw1]
          rw [show (r2.all wfSegB) = wfMsgB r2 from rfl, hwr2]
          rfl
        · rw [hy]
          show ((!(s1.type == tTEXT && y.type == tTEXT)) && isReducedB (y :: ys)) = true
          rw [← hy, hir2, Bool.and_true, hyt]
          by_cases h5 : s1.type = tTEXT
          · by_cases h6 : s2.type = tTEXT
            · exact absurd ⟨h5, h6⟩ hb
            · rw [beq_eq_false_iff_ne.mpr h6, Bool.and_false]
              rfl
          · rw [beq_eq_false_iff_ne.mpr h5, Bool.false_and]
            rfl
        · rw [msgStr_cons, msgStr_cons, hstr2]

/-- Rendering a well-formed reduced message and parsing it back recovers
the message exactly. -/
theorem splitIter_render :
    ∀ m, wfMsgB m = true → isReducedB m = true → splitIter (msgStr m) = some m := by
  intro m
  induction m with
  | nil => intro h1 h2; decide
  | cons s rest ih =>
    intro hwf hred
    obtain ⟨hws, hwrest⟩ := wfMsgB_cons s rest hwf
    by_cases hst : s.type = tTEXT
    · obtain ⟨t, hd, htne, htrf⟩ := wf_text_shape s hws hst
      have hs_eq : s = ⟨tTEXT, [(tTEXT, t)]⟩ := by
        cases s with
        | mk ty da =>
          rw [show ty = tTEXT from hst, show da = [(tTEXT, t)] from hd]
      have hsegt : segStr s = t := by
        rw [hs_eq]
        exact segStr_text t htrf
      have ht_nolb : ∀ c ∈ t, c ≠ '[' :=
        fun c hc => (reservedFree_spec t htrf c hc).2.1
      have ht_noamp : ∀ c ∈ t, c ≠ '&' :=
        fun c hc => (reservedFree_spec t htrf c hc).1
      cases rest with
      | nil =>
        have hms : msgStr [s] = t := by
          rw [msgStr_cons, hsegt]
          rw [show msgStr [] = ([] : Str) from rfl, List.append_nil]
        rw [hms]
        rw [splitIter, iterFne_eq]
        have hft : findToken t = none := by
          have h2 := findToken_prepend t ht_nolb []
          rw [List.append_nil] at h2
          rw [h2]
          rfl
        rw [hft]
        dsimp only
        rw [unescape_id t ht_noamp]
        rw [splitIterGo, if_pos rfl]
        rw [if_neg (by rw [isEmpty_false_of_ne_nil t htne]; exact Bool.false_ne_true)]
        rw [show splitIterGo [] = some [] from rfl]
        simp only [Option.map]
        rw [hs_eq]
      | cons s2 rest2 =>
        obtain ⟨hb, hred2⟩ := isReducedB_cons₂ s s2 rest2 hred
        have hs2nt : ¬ s2.type = tTEXT := fun h2 => hb ⟨hst, h2⟩
        obtain ⟨hws2, hwrest2⟩ := wfMsgB_cons s2 rest2 hwrest
        have hmt := matchToken_seg s2 hws2 hs2nt (msgStr rest2)
        have hft2 : findToken (msgStr (s2 :: rest2)) =
            some ⟨[], s2.type, tokParamsD s2.data, msgStr rest2⟩ := by
          rw [msgStr_cons]
          exact findToken_of_match _ _ _ _ hmt
        have hft : findToken (msgStr (s :: s2 :: rest2)) =
            some ⟨t, s2.type, tokParamsD s2.data, msgStr rest2⟩ := by
          rw [msgStr_cons, hsegt]
          rw [findToken_prepend t ht_nolb _, hft2]
          simp only [Option.map]
          rw [List.append_nil]
        rw [splitIter, iterFne_eq, hft]
        dsimp only
        rw [unescape_id t ht_noamp]
        have hihx : splitIterGo
            ((s2.type, lstripComma (tokParamsD s2.data)) :: iterFne (msgStr rest2)) =
            some (s2 :: rest2) := by
          have h3 := ih hwrest hred2
          rw [splitIter, iterFne_eq, hft2] at h3
          dsimp only at h3
          rw [show unescape ([] : Str) = [] from rfl] at h3
          rw [splitIterGo, if_pos rfl,
            if_pos (show (([] : Str).isEmpty = true) from rfl)] at h3
          exact h3
        rw [splitIterGo, if_pos rfl]
        rw [if_neg (by rw [isEmpty_false_of_ne_nil t htne]; exact Bool.false_ne_true)]
        rw [hihx]
        simp only [Option.map]
        rw [hs_eq]
    · obtain ⟨hb2, hredtail⟩ : True ∧ isReducedB rest = true := by
        cases rest with
        | nil => exact ⟨trivial, rfl⟩
        | cons s2 rest2 => exact ⟨trivial, (isReducedB_cons₂ s s2 rest2 hred).2⟩
      have hmt := matchToken_seg s hws hst (msgStr rest)
      have hft : findToken (msgStr (s :: rest)) =
          some ⟨[], s.type, tokParamsD s.data, msgStr rest⟩ := by
        rw [msgStr_cons]
        exact findToken_of_match _ _ _ _ hmt
      rw [splitIter, iterFne_eq, hft]
      dsimp only
      rw [show unescape ([] : Str) = [] from rfl]
      rw [splitIterGo, if_pos rfl,
        if_pos (show (([] : Str).isEmpty = true) from rfl)]
      rw [splitIterGo, if_neg hst]
      obtain ⟨_, _, hdok, hnd⟩ := wf_nontext_spec s hws hst
      rw [parseParams_render s.data hdok hnd]
      have h3 := ih hwrest hredtail
      rw [splitIter] at h3
      rw [h3]
      simp only [Option.map]

/-- Claim C1, counterexample: the Message holding the single well-formed
segment `text ""` (no reserved characters anywhere) renders to the empty
string, which parses back to the empty Message, while `reduce()` keeps the
placeholder segment — so the claimed round trip fails. -/
theorem C1_counterexample :
    (splitIter (msgStr [⟨tTEXT, [(tTEXT, [])]⟩])).bind reduceM ≠
      reduceM [⟨tTEXT, [(tTEXT, [])]⟩] := by decide

/-- Claim C1, amended: for every Message of well-formed segments — each
`text` segment carrying exactly one non-empty `text` param, each other
segment having a non-empty identifier type, identifier keys, distinct keys
— whose param values contain no reserved characters (`&`, `[`, `]`, `,`),
parsing the rendered string and reducing yields exactly the reduce of the
original Message. -/
theorem C1_render_parse_roundtrip (m : List MessageSegment) (h : wfMsgB m = true) :
    (splitIter (msgStr m)).bind reduceM = reduceM m := by
  obtain ⟨r, hr, hwr, hir, hstr⟩ := reduceM_wf_aux m.length m (Nat.le_refl _) h
  rw [← hstr]
  rw [splitIter_render r hwr hir]
  show reduceM r = reduceM m
  rw [hr, reduceM_noop r.length r (Nat.le_refl _) hir]

theorem C1_roundtrip_witness :
    (splitIter (msgStr [⟨tTEXT, [(tTEXT, "hi ".data)]⟩,
        ⟨"at".data, [("qq".data, "123".data)]⟩])).bind reduceM =
      reduceM [⟨tTEXT, [(tTEXT, "hi ".data)]⟩,
        ⟨"at".data, [("qq".data, "123".data)]⟩] :=
  C1_render_parse_roundtrip
    [⟨tTEXT, [(tTEXT, "hi ".data)]⟩, ⟨"at".data, [("qq".data, "123".data)]⟩]
    (by decide)

end MT
